import Mathlib

/-!
# Concurrency exercises: Hilzer's barbershop and the H2O rendezvous

Shallow embedding of `src/H2O.cpp` (both programs of the file).

* `Barbershop`: the three critical sections guarded by the mutex `count`
  (admission, lines 137-163; the barber's dequeue, lines 110-113; departure,
  lines 183-200) as functions on the captured variables; the transition system
  `Sys` whose events are these critical sections; and `Program`, the
  interleaving semantics of all customer and barber threads, with the
  handshake and payment semaphores.
* `H2O`: the three thread bodies `oxy_func`, `hyd_func`, `conductor_func`
  as small-step functions indexed by a program counter, and the interleaving
  semantics given by a schedule of thread identifiers.

Semaphores are natural-number counters: `acquire` is enabled only when the
counter is positive, `release` adds to it.  A statement that would block (or
whose behaviour is undefined, such as `front()` on an empty queue) has no
successor and is rendered as `none`.  A block that only prints under the
mutex `stream` changes no captured variable and is not a step of its own in
the barbershop; in `H2O` it is a step that changes nothing.
-/

namespace Barbershop

/-- The constant `constexpr int cap = 20;` (line 98). -/
def cap : Int := 20

/-- A queue entry `{tid, sem}` (lines 102-103).  The private semaphore is created
once per customer thread (line 134), so an entry is identified by its thread id. -/
abbrev Client := Nat

/-- The variables captured by `barber_func` and `customer_func` that the critical
sections of the mutex `count` read or write (lines 100-105).  `customer` is the value
of the counting semaphore, `count` tells whether the mutex is held. -/
structure Shop where
  customers : Int
  customers_done : Int
  sofa : List Client
  standing : List Client
  customer : Nat
  count : Bool
  deriving DecidableEq

/-- The state at line 106: nobody inside, both queues empty, semaphore at zero. -/
def Shop.init : Shop :=
  { customers := 0, customers_done := 0, sofa := [], standing := [], customer := 0,
    count := false }

/-- The call `count.lock()`: blocks (no successor) while the mutex is held. -/
def count_lock (s : Shop) : Option Shop :=
  if s.count then none else some { s with count := true }

/-- The call `count.unlock()`. -/
def count_unlock (s : Shop) : Shop :=
  { s with count := false }

/-- Which branch the admission section of `customer_func` took. -/
inductive Placement where
  | rejected
  | sofa
  | standing
  deriving DecidableEq

/-- Lines 137-163 of `customer_func`: the admission critical section, run by the
customer thread `tid`.  Printing is omitted. -/
def customer_func_admission (tid : Client) (s : Shop) : Option (Placement × Shop) :=
  match count_lock s with
  | none => none
  | some s =>
    if s.customers = cap then
      let s := { s with customers_done := s.customers_done + 1 }
      some (Placement.rejected, count_unlock s)
    else
      let s := { s with customers := s.customers + 1 }
      if s.sofa.length < 4 && s.standing.isEmpty then
        let s := { s with sofa := s.sofa ++ [tid] }
        let s := { s with customer := s.customer + 1 }
        some (Placement.sofa, count_unlock s)
      else
        let s := { s with standing := s.standing ++ [tid] }
        some (Placement.standing, count_unlock s)

/-- Lines 110-113 of `barber_func`: `count.lock(); sem = sofa.front(); sofa.pop();
count.unlock();`.  On an empty queue `front()` is undefined behaviour: no successor. -/
def barber_func_dequeue (s : Shop) : Option (Client × Shop) :=
  match count_lock s with
  | none => none
  | some s =>
    match s.sofa with
    | [] => none
    | sem :: rest => some (sem, count_unlock { s with sofa := rest })

/-- Lines 183-200 of `customer_func`: the departure critical section.  The result
carries the client moved from `standing` to `sofa`, if any. -/
def customer_func_departure (s : Shop) : Option (Option Client × Shop) :=
  match count_lock s with
  | none => none
  | some s =>
    let s := { s with customers := s.customers - 1 }
    let s := { s with customers_done := s.customers_done + 1 }
    match s.standing with
    | [] => some (none, count_unlock s)
    | c :: rest =>
      let s := { s with sofa := s.sofa ++ [c] }
      let s := { s with standing := rest }
      let s := { s with customer := s.customer + 1 }
      some (some c, count_unlock s)

/-- The critical sections of the mutex `count`, as events of an execution. -/
inductive Event where
  | arrive (tid : Client)
  | dequeue
  | leave (tid : Client)
  deriving DecidableEq

/-- A shop together with the history of an execution: `inService` lists the clients a
barber has dequeued and that have not left yet, `admitted` the clients admitted so far
(in order), `seated` the clients pushed onto `sofa` so far (in order), `served` the
clients popped from `sofa` so far (in order). -/
structure Sys where
  shop : Shop
  inService : List Client
  admitted : List Client
  seated : List Client
  served : List Client
  deriving DecidableEq

/-- The initial system state of `main`: initial shop, empty history. -/
def Sys.init : Sys :=
  { shop := Shop.init, inService := [], admitted := [], seated := [], served := [] }

/-- One critical section.  A client can only leave after a barber has dequeued it: it
waits on its private semaphore (line 165), which a barber releases (line 119) after
popping the entry; `program_refines_sys` derives this guard from the thread bodies. -/
def Sys.step (σ : Sys) : Event → Option Sys
  | Event.arrive tid =>
    match customer_func_admission tid σ.shop with
    | none => none
    | some (Placement.rejected, sh) => some { σ with shop := sh }
    | some (Placement.sofa, sh) =>
      some { σ with shop := sh, admitted := σ.admitted ++ [tid], seated := σ.seated ++ [tid] }
    | some (Placement.standing, sh) =>
      some { σ with shop := sh, admitted := σ.admitted ++ [tid] }
  | Event.dequeue =>
    match barber_func_dequeue σ.shop with
    | none => none
    | some (c, sh) =>
      some { σ with shop := sh, inService := σ.inService ++ [c], served := σ.served ++ [c] }
  | Event.leave tid =>
    if tid ∈ σ.inService then
      match customer_func_departure σ.shop with
      | none => none
      | some (promoted, sh) =>
        some { σ with shop := sh, inService := σ.inService.erase tid,
                      seated := σ.seated ++ promoted.toList }
    else none

/-- Run a sequence of critical sections; `none` if some event is not enabled. -/
def Sys.run (σ : Sys) : List Event → Option Sys
  | [] => some σ
  | e :: es =>
    match σ.step e with
    | none => none
    | some σ' => Sys.run σ' es

/-- States reachable from the initial state by some sequence of critical sections. -/
def Sys.Reachable (σ : Sys) : Prop :=
  ∃ es : List Event, Sys.run Sys.init es = some σ

/-- The constant `constexpr int cust_threads = 200;` (line 99). -/
def cust_threads : Nat := 200

/-- The next statement of a barber thread (`barber_func`, lines 107-131): `acquire` is
`customer.acquire()`, `dequeue` the critical section of lines 110-113, `wake tid` the
print and `sem.second->release()` for the entry just popped (lines 115-119),
`barberDone` is `barber_done.release()`, `customerDone` is `customer_done.acquire()`,
`payed` is `payed.acquire()`, `accept` the print and `accepted.release()`. -/
inductive BarberPc where
  | acquire
  | dequeue
  | wake (tid : Client)
  | barberDone
  | customerDone
  | payed
  | accept
  deriving DecidableEq

/-- The next statement of a customer thread (`customer_func`, lines 133-201): `arrive`
is the admission section (lines 137-163), `wait` is `sem->acquire()`, `haircut` the
print and `customer_done.release()`, `barberDone` is `barber_done.acquire()`, `regLock`
is `reg.lock()`, `pay` the print and `payed.release()`, `accepted` is
`accepted.acquire()`, `regUnlock` is `reg.unlock()`, `depart` the departure section
(lines 183-200), `gone` the end of the thread (rejected, line 146, or departed). -/
inductive CustomerPc where
  | arrive
  | wait
  | haircut
  | barberDone
  | regLock
  | pay
  | accepted
  | regUnlock
  | depart
  | gone
  deriving DecidableEq

/-- The whole program state of `main`: the shop, the four handshake semaphores, the
mutex `reg`, the private semaphore of every customer thread (`sems[tid]`), and the
program counter of every customer and barber thread.  The thread id of a customer is
its index. -/
structure Program where
  shop : Shop
  customer_done : Nat
  barber_done : Nat
  payed : Nat
  accepted : Nat
  reg : Bool
  sems : List Nat
  customer_threads : List CustomerPc
  barbers : List BarberPc
  deriving DecidableEq

/-- The state after line 105 with `n` customer threads (`cust_threads` in the source)
and the three barbers of lines 204-208, none of which has run yet. -/
def Program.init (n : Nat) : Program :=
  { shop := Shop.init, customer_done := 0, barber_done := 0, payed := 0, accepted := 0,
    reg := false, sems := List.replicate n 0,
    customer_threads := List.replicate n CustomerPc.arrive,
    barbers := List.replicate 3 BarberPc.acquire }

/-- One statement of `barber_func` (lines 107-131), the critical section being one
statement.  An `acquire` on a semaphore at zero blocks: no successor.  Releasing a
binary semaphore that is already at one is undefined: no successor. -/
def barber_func (pc : BarberPc) (p : Program) : Option (BarberPc × Program) :=
  match pc with
  | BarberPc.acquire =>
    if 0 < p.shop.customer then
      some (BarberPc.dequeue, { p with shop := { p.shop with customer := p.shop.customer - 1 } })
    else none
  | BarberPc.dequeue =>
    match barber_func_dequeue p.shop with
    | none => none
    | some (sem, sh) => some (BarberPc.wake sem, { p with shop := sh })
  | BarberPc.wake tid =>
    match p.sems[tid]? with
    | some 0 => some (BarberPc.barberDone, { p with sems := p.sems.set tid 1 })
    | _ => none
  | BarberPc.barberDone =>
    some (BarberPc.customerDone, { p with barber_done := p.barber_done + 1 })
  | BarberPc.customerDone =>
    if 0 < p.customer_done then
      some (BarberPc.payed, { p with customer_done := p.customer_done - 1 })
    else none
  | BarberPc.payed =>
    if 0 < p.payed then some (BarberPc.accept, { p with payed := p.payed - 1 }) else none
  | BarberPc.accept => some (BarberPc.acquire, { p with accepted := p.accepted + 1 })

/-- One statement of `customer_func` (lines 133-201) for the thread `tid`, each
critical section of `count` being one statement. -/
def customer_func (tid : Client) (pc : CustomerPc) (p : Program) :
    Option (CustomerPc × Program) :=
  match pc with
  | CustomerPc.arrive =>
    match customer_func_admission tid p.shop with
    | none => none
    | some (Placement.rejected, sh) => some (CustomerPc.gone, { p with shop := sh })
    | some (_, sh) => some (CustomerPc.wait, { p with shop := sh })
  | CustomerPc.wait =>
    match p.sems[tid]? with
    | some (n + 1) => some (CustomerPc.haircut, { p with sems := p.sems.set tid n })
    | _ => none
  | CustomerPc.haircut =>
    some (CustomerPc.barberDone, { p with customer_done := p.customer_done + 1 })
  | CustomerPc.barberDone =>
    if 0 < p.barber_done then
      some (CustomerPc.regLock, { p with barber_done := p.barber_done - 1 })
    else none
  | CustomerPc.regLock =>
    if p.reg then none else some (CustomerPc.pay, { p with reg := true })
  | CustomerPc.pay => some (CustomerPc.accepted, { p with payed := p.payed + 1 })
  | CustomerPc.accepted =>
    if 0 < p.accepted then
      some (CustomerPc.regUnlock, { p with accepted := p.accepted - 1 })
    else none
  | CustomerPc.regUnlock => some (CustomerPc.depart, { p with reg := false })
  | CustomerPc.depart =>
    match customer_func_departure p.shop with
    | none => none
    | some (_, sh) => some (CustomerPc.gone, { p with shop := sh })
  | CustomerPc.gone => none

/-- A thread of the program. -/
inductive Thread where
  | customer (tid : Client)
  | barber (i : Nat)
  deriving DecidableEq

/-- The thread `t` runs its next statement; `none` if it is blocked, has returned, or
does not exist. -/
def Program.step (p : Program) : Thread → Option Program
  | Thread.customer tid =>
    match p.customer_threads[tid]? with
    | none => none
    | some pc =>
      match customer_func tid pc p with
      | none => none
      | some (pc', p') =>
        some { p' with customer_threads := p'.customer_threads.set tid pc' }
  | Thread.barber i =>
    match p.barbers[i]? with
    | none => none
    | some pc =>
      match barber_func pc p with
      | none => none
      | some (pc', p') => some { p' with barbers := p'.barbers.set i pc' }

/-- An interleaving: the threads named by the schedule run one statement each, in
that order; `none` if one of them cannot. -/
def Program.run (p : Program) : List Thread → Option Program
  | [] => some p
  | t :: ts =>
    match p.step t with
    | none => none
    | some p' => Program.run p' ts

/-- The number of barbers that hold a `customer` token and have not popped yet. -/
def Program.claimed (p : Program) : Nat :=
  p.barbers.count BarberPc.dequeue

/-- An interleaving of six customers and barber 0 in which customer 0 is served
while customer 4 takes the sofa slot it left and customer 5 stands; customer 0 then
goes through the whole handshake and the payment, and departs. -/
def overfullSchedule : List Thread :=
  [Thread.customer 0, Thread.customer 1, Thread.customer 2, Thread.customer 3,
   Thread.barber 0, Thread.barber 0, Thread.barber 0, Thread.barber 0,
   Thread.customer 4, Thread.customer 5,
   Thread.customer 0, Thread.customer 0, Thread.customer 0, Thread.customer 0,
   Thread.customer 0,
   Thread.barber 0, Thread.barber 0, Thread.barber 0,
   Thread.customer 0, Thread.customer 0, Thread.customer 0]

/-- The state `overfullSchedule` leads to: five clients on the sofa. -/
def overfullState : Program :=
  { shop := { customers := 5, customers_done := 1, sofa := [1, 2, 3, 4, 5],
              standing := [], customer := 5, count := false },
    customer_done := 0, barber_done := 0, payed := 0, accepted := 0, reg := false,
    sems := [0, 0, 0, 0, 0, 0],
    customer_threads := [CustomerPc.gone, CustomerPc.wait, CustomerPc.wait,
      CustomerPc.wait, CustomerPc.wait, CustomerPc.wait],
    barbers := [BarberPc.acquire, BarberPc.acquire, BarberPc.acquire] }

/-- Two customers seated, barber 0 between `customer.acquire()` and the dequeue. -/
def tokenState : Program :=
  { shop := { customers := 2, customers_done := 0, sofa := [0, 1], standing := [],
              customer := 1, count := false },
    customer_done := 0, barber_done := 0, payed := 0, accepted := 0, reg := false,
    sems := [0, 0],
    customer_threads := [CustomerPc.wait, CustomerPc.wait],
    barbers := [BarberPc.dequeue, BarberPc.acquire, BarberPc.acquire] }

/-- Has the customer at this program counter been woken by a barber and not yet run
the departure section. -/
def CustomerPc.inChair : CustomerPc → Bool
  | CustomerPc.haircut => true
  | CustomerPc.barberDone => true
  | CustomerPc.regLock => true
  | CustomerPc.pay => true
  | CustomerPc.accepted => true
  | CustomerPc.regUnlock => true
  | CustomerPc.depart => true
  | _ => false

/-- The critical section of `count` that the next statement of thread `t` is, if it
is one. -/
def Program.event (p : Program) : Thread → Option Event
  | Thread.customer tid =>
    match p.customer_threads[tid]? with
    | some CustomerPc.arrive => some (Event.arrive tid)
    | some CustomerPc.depart => some (Event.leave tid)
    | _ => none
  | Thread.barber i =>
    match p.barbers[i]? with
    | some BarberPc.dequeue => some Event.dequeue
    | _ => none

/-- The critical sections run along a schedule, in order. -/
def Program.events (p : Program) : List Thread → List Event
  | [] => []
  | t :: ts =>
    match p.step t with
    | none => []
    | some p' => (p.event t).toList ++ Program.events p' ts

/-- Two shops that differ at most in the value of the semaphore `customer`. -/
structure Shop.Agree (s u : Shop) : Prop where
  customers : s.customers = u.customers
  customers_done : s.customers_done = u.customers_done
  sofa : s.sofa = u.sofa
  standing : s.standing = u.standing
  count : s.count = u.count

/-- The link between a state of the program and a state of the critical-section
system: the shops agree, and a client is in service in the system as often as a barber
is about to wake it, its private semaphore holds a token, or it is between its wake-up
and its departure. -/
structure Program.Link (p : Program) (σ : Sys) : Prop where
  shop : p.shop.Agree σ.shop
  tokens : ∀ tid : Client,
    σ.inService.count tid
      = p.barbers.count (BarberPc.wake tid) + (p.sems[tid]?).getD 0
        + (if ((p.customer_threads[tid]?).getD CustomerPc.gone).inChair then 1 else 0)

/-- The bookkeeping invariant: the mutex is free between sections, occupancy is the
number of queued clients plus the clients in service, and never exceeds `cap`; the
histories record the queues. -/
structure Sys.Inv (σ : Sys) : Prop where
  unlocked : σ.shop.count = false
  occupancy : σ.shop.customers
    = (σ.shop.sofa.length : Int) + σ.shop.standing.length + σ.inService.length
  bounded : σ.shop.customers ≤ cap
  fifo : σ.seated = σ.served ++ σ.shop.sofa
  order : σ.admitted = σ.seated ++ σ.shop.standing

/-- The token invariant: the mutex `count` is free between statements and every
seated client is matched by a token of `customer` or by a barber that took one and has
not popped. -/
structure Program.Inv (p : Program) : Prop where
  unlocked : p.shop.count = false
  tokens : p.shop.customer + p.claimed = p.shop.sofa.length

end Barbershop

namespace H2O

/-- The constant `constexpr auto noxygen = 100;` (line 14). -/
def noxygen : Nat := 100

/-- The constant `constexpr auto nhydrogen = 200;` (line 15). -/
def nhydrogen : Nat := 200

/-- The constant `constexpr auto nmolecules = 100;` (line 16). -/
def nmolecules : Nat := 100

/-- The variables captured by the three lambdas of `sol_with_extra_thread` (lines
9-17).  The six semaphores are given by their counter.  The counters `done` and
`molecules_completed` only count up from zero (to 3 and to the target), so they are
natural numbers. -/
structure Vars where
  oxygen_queue : Nat
  hydrogen_queue : Nat
  oxygen : Nat
  hydrogen : Nat
  bonded : Nat
  mutex : Nat
  done : Nat
  molecules_completed : Nat
  deriving DecidableEq

/-- The next statement of an atom thread (`oxy_func`, lines 19-33; `hyd_func`, lines
35-49): `arrive` is `X.release()`, `queue` is `X_queue.acquire()`, `print` the block
that prints under `stream`, `lock` is `mutex.acquire()`, `incr` is `++done`, `test` is
`if (done == 3)`, `signal` is `bonded.release()`, `unlock` is `mutex.release()`. -/
inductive AtomPc where
  | arrive
  | queue
  | print
  | lock
  | incr
  | test
  | signal
  | unlock
  | finished
  deriving DecidableEq

/-- The next statement of the conductor thread (`conductor_func`, lines 51-69): `loop`
is the test of the `while`, `acqO` is `oxygen.acquire()`, `acqH1` and `acqH2` the two
`hydrogen.acquire()`, `print` the block that prints under `stream`, `relO` is
`oxygen_queue.release()`, `relH` is `hydrogen_queue.release(2)`, `acqB` is
`bonded.acquire()`, `reset` is `done = 0`, `incr` is `++molecules_completed`. -/
inductive CondPc where
  | loop
  | acqO
  | acqH1
  | acqH2
  | print
  | relO
  | relH
  | acqB
  | reset
  | incr
  | finished
  deriving DecidableEq

/-- One statement of `oxy_func` (lines 19-33).  An `acquire` on a semaphore at zero
blocks: no successor.  The print block holds `stream` only while printing and changes
no captured variable. -/
def oxy_func (pc : AtomPc) (v : Vars) : Option (AtomPc × Vars) :=
  match pc with
  | AtomPc.arrive => some (AtomPc.queue, { v with oxygen := v.oxygen + 1 })
  | AtomPc.queue =>
    if 0 < v.oxygen_queue then
      some (AtomPc.print, { v with oxygen_queue := v.oxygen_queue - 1 })
    else none
  | AtomPc.print => some (AtomPc.lock, v)
  | AtomPc.lock =>
    if 0 < v.mutex then some (AtomPc.incr, { v with mutex := v.mutex - 1 }) else none
  | AtomPc.incr => some (AtomPc.test, { v with done := v.done + 1 })
  | AtomPc.test => if v.done = 3 then some (AtomPc.signal, v) else some (AtomPc.unlock, v)
  | AtomPc.signal => some (AtomPc.unlock, { v with bonded := v.bonded + 1 })
  | AtomPc.unlock => some (AtomPc.finished, { v with mutex := v.mutex + 1 })
  | AtomPc.finished => none

/-- One statement of `hyd_func` (lines 35-49). -/
def hyd_func (pc : AtomPc) (v : Vars) : Option (AtomPc × Vars) :=
  match pc with
  | AtomPc.arrive => some (AtomPc.queue, { v with hydrogen := v.hydrogen + 1 })
  | AtomPc.queue =>
    if 0 < v.hydrogen_queue then
      some (AtomPc.print, { v with hydrogen_queue := v.hydrogen_queue - 1 })
    else none
  | AtomPc.print => some (AtomPc.lock, v)
  | AtomPc.lock =>
    if 0 < v.mutex then some (AtomPc.incr, { v with mutex := v.mutex - 1 }) else none
  | AtomPc.incr => some (AtomPc.test, { v with done := v.done + 1 })
  | AtomPc.test => if v.done = 3 then some (AtomPc.signal, v) else some (AtomPc.unlock, v)
  | AtomPc.signal => some (AtomPc.unlock, { v with bonded := v.bonded + 1 })
  | AtomPc.unlock => some (AtomPc.finished, { v with mutex := v.mutex + 1 })
  | AtomPc.finished => none

/-- One statement of `conductor_func` (lines 51-69), for the target `T` (the constant
`nmolecules` in the source). -/
def conductor_func (T : Nat) (pc : CondPc) (v : Vars) : Option (CondPc × Vars) :=
  match pc with
  | CondPc.loop =>
    if v.molecules_completed ≠ T then some (CondPc.acqO, v) else some (CondPc.finished, v)
  | CondPc.acqO =>
    if 0 < v.oxygen then some (CondPc.acqH1, { v with oxygen := v.oxygen - 1 }) else none
  | CondPc.acqH1 =>
    if 0 < v.hydrogen then some (CondPc.acqH2, { v with hydrogen := v.hydrogen - 1 })
    else none
  | CondPc.acqH2 =>
    if 0 < v.hydrogen then some (CondPc.print, { v with hydrogen := v.hydrogen - 1 })
    else none
  | CondPc.print => some (CondPc.relO, v)
  | CondPc.relO => some (CondPc.relH, { v with oxygen_queue := v.oxygen_queue + 1 })
  | CondPc.relH => some (CondPc.acqB, { v with hydrogen_queue := v.hydrogen_queue + 2 })
  | CondPc.acqB =>
    if 0 < v.bonded then some (CondPc.reset, { v with bonded := v.bonded - 1 }) else none
  | CondPc.reset => some (CondPc.incr, { v with done := 0 })
  | CondPc.incr =>
    some (CondPc.loop, { v with molecules_completed := v.molecules_completed + 1 })
  | CondPc.finished => none

/-- The captured variables together with the program counter of every thread: the
conductor (line 71), the hydrogen threads (lines 73-76), the oxygen threads (78-81). -/
structure State where
  vars : Vars
  conductor : CondPc
  hydrogens : List AtomPc
  oxygens : List AtomPc
  deriving DecidableEq

/-- The state after lines 9-17 with `nO` oxygen and `nH` hydrogen threads, none of
which has run yet (`noxygen` and `nhydrogen` in the source). -/
def State.init (nO nH : Nat) : State :=
  { vars := { oxygen_queue := 0, hydrogen_queue := 0, oxygen := 0, hydrogen := 0,
              bonded := 0, mutex := 1, done := 0, molecules_completed := 0 },
    conductor := CondPc.loop,
    hydrogens := List.replicate nH AtomPc.arrive,
    oxygens := List.replicate nO AtomPc.arrive }

/-- A thread of the program. -/
inductive Tid where
  | conductor
  | oxygen (i : Nat)
  | hydrogen (i : Nat)
  deriving DecidableEq

/-- The thread `t` runs its next statement; `none` if it is blocked, has returned, or
does not exist. -/
def step (T : Nat) (s : State) : Tid → Option State
  | Tid.conductor =>
    match conductor_func T s.conductor s.vars with
    | none => none
    | some (pc, v) => some { s with vars := v, conductor := pc }
  | Tid.oxygen i =>
    match s.oxygens[i]? with
    | none => none
    | some pc =>
      match oxy_func pc s.vars with
      | none => none
      | some (pc', v) => some { s with vars := v, oxygens := s.oxygens.set i pc' }
  | Tid.hydrogen i =>
    match s.hydrogens[i]? with
    | none => none
    | some pc =>
      match hyd_func pc s.vars with
      | none => none
      | some (pc', v) => some { s with vars := v, hydrogens := s.hydrogens.set i pc' }

/-- An interleaving: the threads named by the schedule run one statement each, in
that order; `none` if one of them cannot. -/
def run (T : Nat) (s : State) : List Tid → Option State
  | [] => some s
  | t :: ts =>
    match step T s t with
    | none => none
    | some s' => run T s' ts

/-- The sum, over the statements executed along a schedule, of a weight that may
depend on the thread and on the states before and after the statement. -/
def tally (T : Nat) (w : Tid → State → State → Nat) (s : State) : List Tid → Nat
  | [] => 0
  | t :: ts =>
    match step T s t with
    | none => 0
    | some s' => w t s s' + tally T w s' ts

/-- Weight 1 for the conductor entering the loop body (the `while` test succeeds). -/
def bodyEntered (t : Tid) (s s' : State) : Nat :=
  if t = Tid.conductor ∧ s.conductor = CondPc.loop ∧ s'.conductor = CondPc.acqO then 1 else 0

/-- The number of `oxygen` tokens the conductor consumes in a statement. -/
def oxygenTaken (t : Tid) (s s' : State) : Nat :=
  if t = Tid.conductor then s.vars.oxygen - s'.vars.oxygen else 0

/-- The number of `hydrogen` tokens the conductor consumes in a statement. -/
def hydrogenTaken (t : Tid) (s s' : State) : Nat :=
  if t = Tid.conductor then s.vars.hydrogen - s'.vars.hydrogen else 0

/-- The number of `oxygen_queue` tokens (oxygen admissions) a statement issues. -/
def oxygenAdmitted (_t : Tid) (s s' : State) : Nat :=
  s'.vars.oxygen_queue - s.vars.oxygen_queue

/-- The number of `hydrogen_queue` tokens (hydrogen admissions) a statement issues. -/
def hydrogenAdmitted (_t : Tid) (s s' : State) : Nat :=
  s'.vars.hydrogen_queue - s.vars.hydrogen_queue

/-- The number of `bonded` tokens a statement releases. -/
def bondedReleased (_t : Tid) (s s' : State) : Nat :=
  s'.vars.bonded - s.vars.bonded

/-- The atoms of a pool that passed `X_queue.acquire()` and have not run `++done`. -/
def pending (l : List AtomPc) : Nat :=
  l.count AtomPc.print + l.count AtomPc.lock + l.count AtomPc.incr

/-- The atoms of a pool that passed `X_queue.acquire()`: the admitted atoms. -/
def admitted (l : List AtomPc) : Nat :=
  l.count AtomPc.print + l.count AtomPc.lock + l.count AtomPc.incr + l.count AtomPc.test
    + l.count AtomPc.signal + l.count AtomPc.unlock + l.count AtomPc.finished

/-- The atoms of a pool that hold `mutex`. -/
def holders (l : List AtomPc) : Nat :=
  l.count AtomPc.incr + l.count AtomPc.test + l.count AtomPc.signal + l.count AtomPc.unlock

/-- The admissions the conductor has issued in the current iteration (plus those of
the `done` counter not yet reset). -/
def CondPc.issued : CondPc → Nat
  | CondPc.relH => 1
  | CondPc.acqB => 3
  | CondPc.reset => 3
  | _ => 0

/-- The oxygen admissions issued in the iteration under way. -/
def CondPc.gaveO : CondPc → Nat
  | CondPc.relH => 1
  | CondPc.acqB => 1
  | CondPc.reset => 1
  | CondPc.incr => 1
  | _ => 0

/-- The hydrogen admissions issued in the iteration under way. -/
def CondPc.gaveH : CondPc → Nat
  | CondPc.acqB => 2
  | CondPc.reset => 2
  | CondPc.incr => 2
  | _ => 0

/-- The oxygen arrival tokens consumed in the iteration under way. -/
def CondPc.tookO : CondPc → Nat
  | CondPc.loop => 0
  | CondPc.acqO => 0
  | CondPc.finished => 0
  | _ => 1

/-- The hydrogen arrival tokens consumed in the iteration under way. -/
def CondPc.tookH : CondPc → Nat
  | CondPc.loop => 0
  | CondPc.acqO => 0
  | CondPc.acqH1 => 0
  | CondPc.acqH2 => 1
  | CondPc.finished => 0
  | _ => 2

/-- Is an iteration under way (1) or is the conductor at the loop test or done (0). -/
def CondPc.inBody : CondPc → Nat
  | CondPc.loop => 0
  | CondPc.finished => 0
  | _ => 1

/-- The `bonded` tokens acquired in the iteration under way. -/
def CondPc.gotB : CondPc → Nat
  | CondPc.reset => 1
  | CondPc.incr => 1
  | _ => 0

/-- The effect of one statement of an atom thread, of either kind, on the program
counter and on `mutex`, `done`, `oxygen_queue + hydrogen_queue` and `bonded` (in this
order, before and after). -/
inductive AtomMove : AtomPc → AtomPc → Nat → Nat → Nat → Nat → Nat → Nat → Nat → Nat → Prop
  | arrive (m d q b : Nat) : AtomMove AtomPc.arrive AtomPc.queue m d q b m d q b
  | queue (m d q b q' : Nat) (h : q = q' + 1) :
      AtomMove AtomPc.queue AtomPc.print m d q b m d q' b
  | print (m d q b : Nat) : AtomMove AtomPc.print AtomPc.lock m d q b m d q b
  | lock (m d q b m' : Nat) (h : m = m' + 1) :
      AtomMove AtomPc.lock AtomPc.incr m d q b m' d q b
  | incr (m d q b : Nat) : AtomMove AtomPc.incr AtomPc.test m d q b m (d + 1) q b
  | third (m d q b : Nat) (h : d = 3) : AtomMove AtomPc.test AtomPc.signal m d q b m d q b
  | early (m d q b : Nat) (h : d ≠ 3) : AtomMove AtomPc.test AtomPc.unlock m d q b m d q b
  | signal (m d q b : Nat) : AtomMove AtomPc.signal AtomPc.unlock m d q b m d q (b + 1)
  | unlock (m d q b : Nat) : AtomMove AtomPc.unlock AtomPc.finished m d q b (m + 1) d q b

/-- The gating invariant, on the values of `mutex`, `done`,
`oxygen_queue + hydrogen_queue`, `bonded`, the conductor and all the atoms. -/
structure Gating (m d q b : Nat) (c : CondPc) (l : List AtomPc) : Prop where
  mutex_held : m + holders l = 1
  progress : d + q + pending l = c.issued
  quiet : c ≠ CondPc.acqB → b = 0 ∧ l.count AtomPc.signal = 0
  third : c = CondPc.acqB →
    (d = 3 → b + l.count AtomPc.signal + l.count AtomPc.test = 1)
      ∧ (d ≠ 3 → b = 0 ∧ l.count AtomPc.signal = 0)
  resetting : c = CondPc.reset → d = 3 ∧ l.count AtomPc.test = 0

/-- One bonding cycle played by oxygen 0 and hydrogens 0 and 1: the three atoms
arrive, the conductor takes their tokens and admits them, the atoms bond and report (the
last one, hydrogen 0, releases `bonded`), the conductor resets `done` and counts. -/
def oneCycle : List Tid :=
  [Tid.oxygen 0, Tid.hydrogen 0, Tid.hydrogen 1,
   Tid.conductor, Tid.conductor, Tid.conductor, Tid.conductor, Tid.conductor,
   Tid.conductor, Tid.conductor,
   Tid.hydrogen 1, Tid.oxygen 0, Tid.hydrogen 1, Tid.hydrogen 1, Tid.hydrogen 1,
   Tid.hydrogen 1, Tid.hydrogen 1,
   Tid.oxygen 0, Tid.oxygen 0, Tid.hydrogen 0, Tid.oxygen 0, Tid.oxygen 0, Tid.oxygen 0,
   Tid.hydrogen 0, Tid.hydrogen 0, Tid.hydrogen 0, Tid.hydrogen 0, Tid.hydrogen 0,
   Tid.conductor, Tid.hydrogen 0, Tid.conductor, Tid.conductor]

/-- Renumber the atom threads of a schedule: oxygen `i` becomes oxygen `a + i`,
hydrogen `i` becomes hydrogen `a' + i`. -/
def shift (a a' : Nat) : Tid → Tid
  | Tid.conductor => Tid.conductor
  | Tid.oxygen i => Tid.oxygen (a + i)
  | Tid.hydrogen i => Tid.hydrogen (a' + i)

/-- The schedule that plays `k` bonding cycles one after the other, cycle `j` with
oxygen `j` and hydrogens `2 * j` and `2 * j + 1`. -/
def cycles : Nat → List Tid
  | 0 => []
  | k + 1 => cycles k ++ oneCycle.map (shift k (2 * k))

/-- A complete schedule for the target `T`: `T` cycles, then the last loop test. -/
def completeSchedule (T : Nat) : List Tid :=
  cycles T ++ [Tid.conductor]

/-- The state between two cycles, `k` molecules being completed: the first `k`
oxygens and `2 * k` hydrogens have returned, the others have not started. -/
def State.between (nO nH k : Nat) : State :=
  { vars := { oxygen_queue := 0, hydrogen_queue := 0, oxygen := 0, hydrogen := 0,
              bonded := 0, mutex := 1, done := 0, molecules_completed := k },
    conductor := CondPc.loop,
    hydrogens := List.replicate (2 * k) AtomPc.finished
      ++ List.replicate (nH - 2 * k) AtomPc.arrive,
    oxygens := List.replicate k AtomPc.finished ++ List.replicate (nO - k) AtomPc.arrive }

/-- The state at the end of `completeSchedule T`: the conductor has left the loop. -/
def State.completed (nO nH T : Nat) : State :=
  { State.between nO nH T with conductor := CondPc.finished }

/-- The first 29 statements of `oneCycle`: up to the conductor's `bonded.acquire()`. -/
def upToReset : List Tid :=
  oneCycle.take 29

/-- The state `upToReset` leads to from pools of one oxygen and two hydrogens: the
conductor is about to run `done = 0` while the third atom still holds `mutex`. -/
def State.atReset : State :=
  { vars := { oxygen_queue := 0, hydrogen_queue := 0, oxygen := 0, hydrogen := 0,
              bonded := 0, mutex := 0, done := 3, molecules_completed := 0 },
    conductor := CondPc.reset,
    hydrogens := [AtomPc.unlock, AtomPc.finished],
    oxygens := [AtomPc.finished] }

/-- The invariant of the whole state: the gating of the cycles, the loop counter against the target,
and the account of the admissions per kind. -/
structure Inv (T : Nat) (s : State) : Prop where
  gating : Gating s.vars.mutex s.vars.done (s.vars.oxygen_queue + s.vars.hydrogen_queue)
    s.vars.bonded s.conductor (s.oxygens ++ s.hydrogens)
  target : (s.conductor = CondPc.finished → s.vars.molecules_completed = T)
    ∧ (s.conductor.inBody = 1 → s.vars.molecules_completed ≠ T)
  oxygen_admitted : s.vars.oxygen_queue + admitted s.oxygens
    = s.vars.molecules_completed + s.conductor.gaveO
  hydrogen_admitted : s.vars.hydrogen_queue + admitted s.hydrogens
    = 2 * s.vars.molecules_completed + s.conductor.gaveH
  hydrogen_idle : s.conductor ≠ CondPc.acqB → s.conductor ≠ CondPc.reset →
    s.vars.hydrogen_queue = 0 ∧ pending s.hydrogens = 0

/-- The six accounts of one statement: loop entries, arrival tokens taken, admissions
issued, `bonded` tokens released. -/
structure Ledger (t : Tid) (s s' : State) : Prop where
  body : s'.vars.molecules_completed + s'.conductor.inBody
    = s.vars.molecules_completed + s.conductor.inBody + bodyEntered t s s'
  tookO : s'.vars.molecules_completed + s'.conductor.tookO
    = s.vars.molecules_completed + s.conductor.tookO + oxygenTaken t s s'
  tookH : 2 * s'.vars.molecules_completed + s'.conductor.tookH
    = 2 * s.vars.molecules_completed + s.conductor.tookH + hydrogenTaken t s s'
  gaveO : s'.vars.molecules_completed + s'.conductor.gaveO
    = s.vars.molecules_completed + s.conductor.gaveO + oxygenAdmitted t s s'
  gaveH : 2 * s'.vars.molecules_completed + s'.conductor.gaveH
    = 2 * s.vars.molecules_completed + s.conductor.gaveH + hydrogenAdmitted t s s'
  bonded : s'.vars.molecules_completed + s'.conductor.gotB + s'.vars.bonded
    = s.vars.molecules_completed + s.conductor.gotB + s.vars.bonded + bondedReleased t s s'

end H2O

/-! ## Shared list lemma -/

/-- Replacing the entry at index `i` moves one unit of a `countP` tally from the old
value to the new one. -/
theorem countP_set_balance {α : Type} (p : α → Bool) :
    ∀ (l : List α) (i : Nat) (a b : α), l[i]? = some a →
      (l.set i b).countP p + (if p a then 1 else 0) = l.countP p + (if p b then 1 else 0) := by
  intro l
  induction l with
  | nil => intro i a b h; simp at h
  | cons x xs ih =>
    intro i a b h
    cases i with
    | zero =>
      simp at h
      subst h
      simp [List.countP_cons]
      omega
    | succ j =>
      simp at h
      have := ih j a b h
      simp [List.countP_cons]
      omega

/-- The same for `count`. -/
theorem count_set_balance {α : Type} [DecidableEq α] (l : List α) (i : Nat) (a b q : α)
    (h : l[i]? = some a) :
    (l.set i b).count q + (if a = q then 1 else 0) = l.count q + (if b = q then 1 else 0) := by
  have := countP_set_balance (fun x => x == q) l i a b h
  simpa [List.count] using this

theorem getElem?_lt {α : Type} (l : List α) (i : Nat) (a : α) (h : l[i]? = some a) :
    i < l.length := by
  by_contra hn
  rw [List.getElem?_eq_none (by omega)] at h
  cases h

theorem getElem?_frame {α : Type} (A O C : List α) (i : Nat) (a : α) (h : O[i]? = some a) :
    (A ++ O ++ C)[A.length + i]? = some a := by
  have hlt := getElem?_lt O i a h
  rw [List.append_assoc, List.getElem?_append_right (by omega)]
  rw [List.getElem?_append_left (by simpa using hlt)]
  simpa using h

theorem set_frame {α : Type} (A O C : List α) (i : Nat) (x : α) (h : i < O.length) :
    (A ++ O ++ C).set (A.length + i) x = A ++ O.set i x ++ C := by
  rw [List.append_assoc, List.set_append_right _ _ (by omega)]
  rw [List.set_append_left _ _ (by simpa using h)]
  simp

theorem replicate_split {α : Type} (a b : α) (n k j : Nat) (h : k + j ≤ n) :
    List.replicate k a ++ List.replicate (n - k) b
      = List.replicate k a ++ List.replicate j b ++ List.replicate (n - (k + j)) b := by
  have e : n - k = j + (n - (k + j)) := by omega
  rw [e, List.replicate_add, List.append_assoc]

theorem replicate_join {α : Type} (a : α) (k j : Nat) (l : List α) :
    List.replicate (k + j) a ++ l = List.replicate k a ++ List.replicate j a ++ l := by
  rw [List.replicate_add]

namespace Barbershop

/-! ## The critical sections on an unlocked shop -/

theorem admission_unlocked (tid : Client) (s : Shop) (h : s.count = false) :
    customer_func_admission tid s =
      if s.customers = cap then
        some (Placement.rejected, { s with customers_done := s.customers_done + 1 })
      else if s.sofa.length < 4 ∧ s.standing = [] then
        some (Placement.sofa, { s with customers := s.customers + 1, sofa := s.sofa ++ [tid],
                                        customer := s.customer + 1 })
      else
        some (Placement.standing, { s with customers := s.customers + 1,
                                            standing := s.standing ++ [tid] }) := by
  cases s with
  | mk cu cd so st cs ct =>
    simp only at h
    subst h
    simp only [customer_func_admission, count_lock, count_unlock]
    by_cases h1 : cu = cap
    · simp [h1]
    · by_cases h2 : so.length < 4 <;> cases st <;> simp [h1, h2]

theorem dequeue_unlocked (s : Shop) (h : s.count = false) :
    barber_func_dequeue s =
      match s.sofa with
      | [] => none
      | sem :: rest => some (sem, { s with sofa := rest }) := by
  cases s with
  | mk cu cd so st cs ct =>
    simp only at h
    subst h
    cases so <;> simp [barber_func_dequeue, count_lock, count_unlock]

theorem departure_unlocked (s : Shop) (h : s.count = false) :
    customer_func_departure s =
      match s.standing with
      | [] => some (none, { s with customers := s.customers - 1,
                                   customers_done := s.customers_done + 1 })
      | c :: rest =>
        some (some c, { s with customers := s.customers - 1,
                               customers_done := s.customers_done + 1,
                               sofa := s.sofa ++ [c], standing := rest,
                               customer := s.customer + 1 }) := by
  cases s with
  | mk cu cd so st cs ct =>
    simp only at h
    subst h
    cases st <;> simp [customer_func_departure, count_lock, count_unlock]

theorem admission_locked (tid : Client) (s : Shop) (h : s.count = true) :
    customer_func_admission tid s = none := by
  simp [customer_func_admission, count_lock, h]

theorem dequeue_locked (s : Shop) (h : s.count = true) : barber_func_dequeue s = none := by
  simp [barber_func_dequeue, count_lock, h]

theorem departure_locked (s : Shop) (h : s.count = true) :
    customer_func_departure s = none := by
  simp [customer_func_departure, count_lock, h]

/-! ## Invariants of the critical-section system -/

/-- Any property kept by every enabled event is kept by every run. -/
theorem sys_run_preserves (P : Sys → Prop)
    (hstep : ∀ σ e σ', P σ → Sys.step σ e = some σ' → P σ') :
    ∀ (es : List Event) (σ σ' : Sys), P σ → Sys.run σ es = some σ' → P σ' := by
  intro es
  induction es with
  | nil =>
    intro σ σ' hP h
    simp [Sys.run] at h
    subst h
    exact hP
  | cons e es ih =>
    intro σ σ' hP h
    simp only [Sys.run] at h
    cases hs : Sys.step σ e with
    | none => simp [hs] at h
    | some σ₁ =>
      simp only [hs] at h
      exact ih σ₁ σ' (hstep σ e σ₁ hP hs) h

theorem sys_inv_init : Sys.Inv Sys.init := by
  constructor <;> simp [Sys.init, Shop.init, cap]

theorem sys_inv_step (σ : Sys) (e : Event) (σ' : Sys) (hI : Sys.Inv σ)
    (h : Sys.step σ e = some σ') : Sys.Inv σ' := by
  obtain ⟨hu, ho, hb, hf, hord⟩ := hI
  cases e with
  | arrive tid =>
    simp only [Sys.step, admission_unlocked tid σ.shop hu] at h
    by_cases h1 : σ.shop.customers = cap
    · simp only [h1, if_true] at h
      injection h with h
      subst h
      constructor <;> simp_all
    · by_cases h2 : σ.shop.sofa.length < 4 ∧ σ.shop.standing = []
      · simp only [h1, h2, if_false, if_true, and_self] at h
        injection h with h
        subst h
        have : σ.shop.customers ≤ cap - 1 := by
          simp only [cap] at *
          omega
        constructor <;> simp_all [cap] <;> omega
      · simp only [h1, h2, if_false] at h
        injection h with h
        subst h
        have : σ.shop.customers ≤ cap - 1 := by
          simp only [cap] at *
          omega
        constructor <;> simp_all [cap] <;> omega
  | dequeue =>
    simp only [Sys.step, dequeue_unlocked σ.shop hu] at h
    cases hs : σ.shop.sofa with
    | nil => simp [hs] at h
    | cons c rest =>
      simp only [hs] at h
      injection h with h
      subst h
      constructor <;> simp_all
      omega
  | leave tid =>
    simp only [Sys.step, departure_unlocked σ.shop hu] at h
    by_cases hm : tid ∈ σ.inService
    · have hlen := List.length_erase_of_mem hm
      have hpos : 0 < σ.inService.length := List.length_pos_of_mem hm
      simp only [hm, if_true] at h
      cases hs : σ.shop.standing with
      | nil =>
        simp only [hs] at h
        injection h with h
        subst h
        constructor <;> simp_all <;> omega
      | cons c rest =>
        simp only [hs] at h
        injection h with h
        subst h
        constructor <;> simp_all <;> omega
    · simp [hm] at h

theorem sys_inv_of_reachable (σ : Sys) (h : σ.Reachable) : Sys.Inv σ := by
  obtain ⟨es, hes⟩ := h
  exact sys_run_preserves Sys.Inv sys_inv_step es Sys.init σ sys_inv_init hes

/-! ## Invariants of the program (all threads) -/

theorem admission_tokens (tid : Client) (s s' : Shop) (pl : Placement)
    (hu : s.count = false) (h : customer_func_admission tid s = some (pl, s')) :
    s'.count = false ∧ s'.customer + s.sofa.length = s.customer + s'.sofa.length := by
  rw [admission_unlocked tid s hu] at h
  by_cases h1 : s.customers = cap
  · simp only [h1, if_true, Option.some.injEq, Prod.mk.injEq] at h
    obtain ⟨-, rfl⟩ := h
    exact ⟨hu, rfl⟩
  · by_cases h2 : s.sofa.length < 4 ∧ s.standing = []
    · simp only [h1, h2, if_false, if_true, and_self, Option.some.injEq, Prod.mk.injEq] at h
      obtain ⟨-, rfl⟩ := h
      refine ⟨hu, ?_⟩
      simp only [List.length_append, List.length_singleton]
      omega
    · simp only [h1, h2, if_false, Option.some.injEq, Prod.mk.injEq] at h
      obtain ⟨-, rfl⟩ := h
      exact ⟨hu, rfl⟩

theorem departure_tokens (s s' : Shop) (c : Option Client)
    (hu : s.count = false) (h : customer_func_departure s = some (c, s')) :
    s'.count = false ∧ s'.customer + s.sofa.length = s.customer + s'.sofa.length := by
  rw [departure_unlocked s hu] at h
  cases hs : s.standing with
  | nil =>
    simp only [hs, Option.some.injEq, Prod.mk.injEq] at h
    obtain ⟨-, rfl⟩ := h
    exact ⟨hu, rfl⟩
  | cons x rest =>
    simp only [hs, Option.some.injEq, Prod.mk.injEq] at h
    obtain ⟨-, rfl⟩ := h
    refine ⟨hu, ?_⟩
    simp only [List.length_append, List.length_singleton]
    omega

theorem dequeue_tokens (s s' : Shop) (c : Client)
    (hu : s.count = false) (h : barber_func_dequeue s = some (c, s')) :
    s'.count = false ∧ s'.customer = s.customer ∧ s.sofa = c :: s'.sofa := by
  rw [dequeue_unlocked s hu] at h
  cases hs : s.sofa with
  | nil => simp [hs] at h
  | cons x rest =>
    simp only [hs, Option.some.injEq, Prod.mk.injEq] at h
    obtain ⟨rfl, rfl⟩ := h
    exact ⟨hu, rfl, rfl⟩

/-- What a statement of a customer does to the shop: nothing, or one of the two
critical sections; it never touches the barbers. -/
theorem customer_func_shop (tid : Client) (pc pc' : CustomerPc) (p p' : Program)
    (h : customer_func tid pc p = some (pc', p')) :
    p'.barbers = p.barbers
      ∧ (p'.shop = p.shop
        ∨ (∃ pl, customer_func_admission tid p.shop = some (pl, p'.shop))
        ∨ (∃ c, customer_func_departure p.shop = some (c, p'.shop))) := by
  cases pc <;> simp only [customer_func] at h
  · cases hf : customer_func_admission tid p.shop with
    | none => simp [hf] at h
    | some r =>
      obtain ⟨pl, sh⟩ := r
      cases pl <;> simp only [hf, Option.some.injEq, Prod.mk.injEq] at h <;>
        obtain ⟨-, rfl⟩ := h <;> exact ⟨rfl, Or.inr (Or.inl ⟨_, rfl⟩)⟩
  · split at h
    · cases h
      exact ⟨rfl, Or.inl rfl⟩
    · cases h
  · cases h
    exact ⟨rfl, Or.inl rfl⟩
  · split at h
    · cases h
      exact ⟨rfl, Or.inl rfl⟩
    · cases h
  · split at h
    · cases h
    · cases h
      exact ⟨rfl, Or.inl rfl⟩
  · cases h
    exact ⟨rfl, Or.inl rfl⟩
  · split at h
    · cases h
      exact ⟨rfl, Or.inl rfl⟩
    · cases h
  · cases h
    exact ⟨rfl, Or.inl rfl⟩
  · cases hf : customer_func_departure p.shop with
    | none => simp [hf] at h
    | some r =>
      obtain ⟨c, sh⟩ := r
      simp only [hf, Option.some.injEq, Prod.mk.injEq] at h
      obtain ⟨-, rfl⟩ := h
      exact ⟨rfl, Or.inr (Or.inr ⟨_, rfl⟩)⟩
  · cases h

/-- What a statement of a barber does to the shop and to its own program counter. -/
theorem barber_func_shop (pc pc' : BarberPc) (p p' : Program)
    (h : barber_func pc p = some (pc', p')) :
    p'.barbers = p.barbers
      ∧ ((pc = BarberPc.acquire ∧ pc' = BarberPc.dequeue
            ∧ p'.shop.customer + 1 = p.shop.customer ∧ p'.shop.sofa = p.shop.sofa
            ∧ p'.shop.count = p.shop.count)
        ∨ (pc = BarberPc.dequeue ∧ pc' ≠ BarberPc.dequeue
            ∧ ∃ c, barber_func_dequeue p.shop = some (c, p'.shop))
        ∨ (pc ≠ BarberPc.dequeue ∧ pc' ≠ BarberPc.dequeue ∧ p'.shop = p.shop)) := by
  cases pc <;> simp only [barber_func] at h
  · split at h
    · cases h
      refine ⟨rfl, Or.inl ⟨rfl, rfl, ?_, rfl, rfl⟩⟩
      simp only []
      omega
    · cases h
  · cases hf : barber_func_dequeue p.shop with
    | none => simp [hf] at h
    | some r =>
      obtain ⟨c, sh⟩ := r
      simp only [hf, Option.some.injEq, Prod.mk.injEq] at h
      obtain ⟨rfl, rfl⟩ := h
      exact ⟨rfl, Or.inr (Or.inl ⟨rfl, by simp, _, rfl⟩)⟩
  · split at h
    · cases h
      exact ⟨rfl, Or.inr (Or.inr ⟨by simp, by simp, rfl⟩)⟩
    · cases h
  · cases h
    exact ⟨rfl, Or.inr (Or.inr ⟨by simp, by simp, rfl⟩)⟩
  · split at h
    · cases h
      exact ⟨rfl, Or.inr (Or.inr ⟨by simp, by simp, rfl⟩)⟩
    · cases h
  · split at h
    · cases h
      exact ⟨rfl, Or.inr (Or.inr ⟨by simp, by simp, rfl⟩)⟩
    · cases h
  · cases h
    exact ⟨rfl, Or.inr (Or.inr ⟨by simp, by simp, rfl⟩)⟩

theorem program_inv_init (n : Nat) : Program.Inv (Program.init n) := by
  constructor <;> simp [Program.init, Program.claimed, Shop.init]

theorem program_inv_step (p : Program) (t : Thread) (p' : Program) (hI : Program.Inv p)
    (h : Program.step p t = some p') : Program.Inv p' := by
  obtain ⟨hu, ht⟩ := hI
  cases t with
  | customer tid =>
    simp only [Program.step] at h
    cases hpc : p.customer_threads[tid]? with
    | none => simp [hpc] at h
    | some pc =>
      simp only [hpc] at h
      cases hf : customer_func tid pc p with
      | none => simp [hf] at h
      | some r =>
        obtain ⟨pc', q⟩ := r
        simp only [hf, Option.some.injEq] at h
        subst h
        obtain ⟨hb, hs | ⟨pl, hs⟩ | ⟨c, hs⟩⟩ := customer_func_shop tid pc pc' p q hf
        · constructor
          · simpa [hs] using hu
          · simpa [Program.claimed, hs, hb] using ht
        · obtain ⟨h1, h2⟩ := admission_tokens tid p.shop q.shop pl hu hs
          constructor
          · exact h1
          · simp only [Program.claimed, hb] at ht ⊢
            omega
        · obtain ⟨h1, h2⟩ := departure_tokens p.shop q.shop c hu hs
          constructor
          · exact h1
          · simp only [Program.claimed, hb] at ht ⊢
            omega
  | barber i =>
    simp only [Program.step] at h
    cases hpc : p.barbers[i]? with
    | none => simp [hpc] at h
    | some pc =>
      simp only [hpc] at h
      cases hf : barber_func pc p with
      | none => simp [hf] at h
      | some r =>
        obtain ⟨pc', q⟩ := r
        simp only [hf, Option.some.injEq] at h
        subst h
        have hbal := count_set_balance p.barbers i pc pc' BarberPc.dequeue hpc
        obtain ⟨hb, ⟨rfl, rfl, h1, h2, h3⟩ | ⟨rfl, hne, c, hs⟩ | ⟨hne, hne', hs⟩⟩ :=
          barber_func_shop pc pc' p q hf
        · simp at hbal
          constructor
          · simpa [h3] using hu
          · simp only [Program.claimed, hb, h2] at ht ⊢
            omega
        · obtain ⟨g1, g2, g3⟩ := dequeue_tokens p.shop q.shop c hu hs
          simp [hne] at hbal
          constructor
          · exact g1
          · simp only [Program.claimed, hb, g2, g3, List.length_cons] at ht ⊢
            omega
        · simp [hne, hne'] at hbal
          constructor
          · simpa [hs] using hu
          · simp only [Program.claimed, hb, hs] at ht ⊢
            omega

theorem program_run_preserves (P : Program → Prop)
    (hstep : ∀ p t p', P p → Program.step p t = some p' → P p') :
    ∀ (ts : List Thread) (p p' : Program), P p → Program.run p ts = some p' → P p' := by
  intro ts
  induction ts with
  | nil =>
    intro p p' hP h
    simp only [Program.run, Option.some.injEq] at h
    subst h
    exact hP
  | cons t ts ih =>
    intro p p' hP h
    simp only [Program.run] at h
    cases hs : Program.step p t with
    | none => simp [hs] at h
    | some p₁ =>
      simp only [hs] at h
      exact ih p₁ p' (hstep p t p₁ hP hs) h

/-! ## The program refines the critical-section system -/

theorem admission_agree (tid : Client) (s u s' : Shop) (pl : Placement) (hag : s.Agree u)
    (h : customer_func_admission tid s = some (pl, s')) :
    ∃ u', customer_func_admission tid u = some (pl, u') ∧ s'.Agree u' := by
  obtain ⟨h1, h2, h3, h4, h5⟩ := hag
  have hu : s.count = false := by
    cases hc : s.count with
    | false => rfl
    | true => rw [admission_locked tid s hc] at h; cases h
  rw [admission_unlocked tid s hu] at h
  rw [admission_unlocked tid u (h5 ▸ hu)]
  rw [← h1, ← h3, ← h4]
  by_cases c1 : s.customers = cap
  · simp only [c1, if_true, Option.some.injEq, Prod.mk.injEq] at h ⊢
    obtain ⟨rfl, rfl⟩ := h
    exact ⟨_, ⟨rfl, rfl⟩, by constructor <;> simp_all⟩
  · by_cases c2 : s.sofa.length < 4 ∧ s.standing = []
    · simp only [c1, c2, if_false, if_true, and_self, Option.some.injEq, Prod.mk.injEq] at h ⊢
      obtain ⟨rfl, rfl⟩ := h
      exact ⟨_, ⟨rfl, rfl⟩, by constructor <;> simp_all⟩
    · simp only [c1, c2, if_false, Option.some.injEq, Prod.mk.injEq] at h ⊢
      obtain ⟨rfl, rfl⟩ := h
      exact ⟨_, ⟨rfl, rfl⟩, by constructor <;> simp_all⟩

theorem dequeue_agree (s u s' : Shop) (c : Client) (hag : s.Agree u)
    (h : barber_func_dequeue s = some (c, s')) :
    ∃ u', barber_func_dequeue u = some (c, u') ∧ s'.Agree u' := by
  obtain ⟨h1, h2, h3, h4, h5⟩ := hag
  have hu : s.count = false := by
    cases hc : s.count with
    | false => rfl
    | true => rw [dequeue_locked s hc] at h; cases h
  rw [dequeue_unlocked s hu] at h
  rw [dequeue_unlocked u (h5 ▸ hu), ← h3]
  cases hs : s.sofa with
  | nil => simp [hs] at h
  | cons x rest =>
    simp only [hs, Option.some.injEq, Prod.mk.injEq] at h ⊢
    obtain ⟨rfl, rfl⟩ := h
    exact ⟨_, ⟨rfl, rfl⟩, by constructor <;> simp_all⟩

theorem departure_agree (s u s' : Shop) (c : Option Client) (hag : s.Agree u)
    (h : customer_func_departure s = some (c, s')) :
    ∃ u', customer_func_departure u = some (c, u') ∧ s'.Agree u' := by
  obtain ⟨h1, h2, h3, h4, h5⟩ := hag
  have hu : s.count = false := by
    cases hc : s.count with
    | false => rfl
    | true => rw [departure_locked s hc] at h; cases h
  rw [departure_unlocked s hu] at h
  rw [departure_unlocked u (h5 ▸ hu), ← h4]
  cases hs : s.standing with
  | nil =>
    simp only [hs, Option.some.injEq, Prod.mk.injEq] at h ⊢
    obtain ⟨rfl, rfl⟩ := h
    exact ⟨_, ⟨rfl, rfl⟩, by constructor <;> simp_all⟩
  | cons x rest =>
    simp only [hs, Option.some.injEq, Prod.mk.injEq] at h ⊢
    obtain ⟨rfl, rfl⟩ := h
    exact ⟨_, ⟨rfl, rfl⟩, by constructor <;> simp_all⟩

theorem getD_set_self {α : Type} (l : List α) (i : Nat) (a b d : α) (h : l[i]? = some a) :
    ((l.set i b)[i]?).getD d = b := by
  have hlt := getElem?_lt l i a h
  simp [List.getElem?_set, hlt]

theorem link_customer (p q : Program) (σ : Sys) (tid : Client) (pc pc' : CustomerPc)
    (hL : p.Link σ) (hpc : p.customer_threads[tid]? = some pc)
    (hf : customer_func tid pc p = some (pc', q)) :
    ∃ σ', Sys.run σ (p.event (Thread.customer tid)).toList = some σ'
      ∧ Program.Link { q with customer_threads := q.customer_threads.set tid pc' } σ' := by
  obtain ⟨hag, htok⟩ := hL
  have hself : ∀ b, ((p.customer_threads.set tid b)[tid]?).getD CustomerPc.gone = b :=
    fun b => getD_set_self _ _ _ _ _ hpc
  have hother : ∀ (b : CustomerPc) (k : Nat), k ≠ tid →
      (p.customer_threads.set tid b)[k]? = p.customer_threads[k]? :=
    fun b k hk => List.getElem?_set_ne (Ne.symm hk)
  cases pc <;> simp only [customer_func] at hf <;> simp only [Program.event, hpc]
  · -- arrive
    cases hadm : customer_func_admission tid p.shop with
    | none => simp [hadm] at hf
    | some r =>
      obtain ⟨pl, sh⟩ := r
      obtain ⟨u', hu', hag'⟩ := admission_agree tid p.shop σ.shop sh pl hag hadm
      cases pl <;> simp only [hadm, Option.some.injEq, Prod.mk.injEq] at hf <;>
        obtain ⟨rfl, rfl⟩ := hf <;>
        simp only [Option.toList, Sys.run, Sys.step, hu'] <;>
        refine ⟨_, rfl, hag', ?_⟩ <;>
        intro k <;> have hk := htok k <;>
        by_cases e : k = tid
      all_goals first
        | (subst e; simp only [hself, hpc, Option.getD_some, CustomerPc.inChair] at hk ⊢
           simpa using hk)
        | (simp only [hother _ k e]; exact hk)
  · -- wait
    split at hf
    · rename_i n hsem
      cases hf
      simp only [Option.toList, Sys.run]
      refine ⟨σ, rfl, hag, ?_⟩
      intro k
      have hk := htok k
      by_cases e : k = tid
      · subst e
        simp only [hself, hpc, hsem, getD_set_self _ _ _ _ _ hsem, Option.getD_some,
          CustomerPc.inChair] at hk ⊢
        simp only [Bool.false_eq_true, if_false, if_true] at hk ⊢
        omega
      · simp only [hother _ k e, List.getElem?_set_ne (Ne.symm e)]
        exact hk
    · cases hf
  · -- haircut
    cases hf
    simp only [Option.toList, Sys.run]
    refine ⟨σ, rfl, hag, ?_⟩
    intro k
    have hk := htok k
    by_cases e : k = tid
    · subst e
      simp only [hself, hpc, Option.getD_some, CustomerPc.inChair] at hk ⊢
      exact hk
    · simp only [hother _ k e]
      exact hk
  · -- barberDone
    split at hf
    · cases hf
      simp only [Option.toList, Sys.run]
      refine ⟨σ, rfl, hag, ?_⟩
      intro k
      have hk := htok k
      by_cases e : k = tid
      · subst e
        simp only [hself, hpc, Option.getD_some, CustomerPc.inChair] at hk ⊢
        exact hk
      · simp only [hother _ k e]
        exact hk
    · cases hf
  · -- regLock
    split at hf
    · cases hf
    · cases hf
      simp only [Option.toList, Sys.run]
      refine ⟨σ, rfl, hag, ?_⟩
      intro k
      have hk := htok k
      by_cases e : k = tid
      · subst e
        simp only [hself, hpc, Option.getD_some, CustomerPc.inChair] at hk ⊢
        exact hk
      · simp only [hother _ k e]
        exact hk
  · -- pay
    cases hf
    simp only [Option.toList, Sys.run]
    refine ⟨σ, rfl, hag, ?_⟩
    intro k
    have hk := htok k
    by_cases e : k = tid
    · subst e
      simp only [hself, hpc, Option.getD_some, CustomerPc.inChair] at hk ⊢
      exact hk
    · simp only [hother _ k e]
      exact hk
  · -- accepted
    split at hf
    · cases hf
      simp only [Option.toList, Sys.run]
      refine ⟨σ, rfl, hag, ?_⟩
      intro k
      have hk := htok k
      by_cases e : k = tid
      · subst e
        simp only [hself, hpc, Option.getD_some, CustomerPc.inChair] at hk ⊢
        exact hk
      · simp only [hother _ k e]
        exact hk
    · cases hf
  · -- regUnlock
    cases hf
    simp only [Option.toList, Sys.run]
    refine ⟨σ, rfl, hag, ?_⟩
    intro k
    have hk := htok k
    by_cases e : k = tid
    · subst e
      simp only [hself, hpc, Option.getD_some, CustomerPc.inChair] at hk ⊢
      exact hk
    · simp only [hother _ k e]
      exact hk
  · -- depart
    cases hdep : customer_func_departure p.shop with
    | none => simp [hdep] at hf
    | some r =>
      obtain ⟨c, sh⟩ := r
      obtain ⟨u', hu', hag'⟩ := departure_agree p.shop σ.shop sh c hag hdep
      simp only [hdep, Option.some.injEq, Prod.mk.injEq] at hf
      obtain ⟨rfl, rfl⟩ := hf
      have hmem : tid ∈ σ.inService := by
        have := htok tid
        simp only [hpc, Option.getD_some, CustomerPc.inChair, if_true] at this
        exact List.count_pos_iff.1 (by omega)
      simp only [Option.toList, Sys.run, Sys.step, hmem, if_true, hu']
      refine ⟨_, rfl, hag', ?_⟩
      intro k
      have hk := htok k
      by_cases e : k = tid
      · subst e
        simp only [hself, hpc, Option.getD_some, CustomerPc.inChair, List.count_erase_self]
          at hk ⊢
        simp only [Bool.false_eq_true, if_false, if_true] at hk ⊢
        omega
      · simp only [hother _ k e, List.count_erase_of_ne e]
        exact hk
  · -- gone
    cases hf

theorem link_barber (p q : Program) (σ : Sys) (i : Nat) (pc pc' : BarberPc)
    (hL : p.Link σ) (hpc : p.barbers[i]? = some pc)
    (hf : barber_func pc p = some (pc', q)) :
    ∃ σ', Sys.run σ (p.event (Thread.barber i)).toList = some σ'
      ∧ Program.Link { q with barbers := q.barbers.set i pc' } σ' := by
  obtain ⟨hag, htok⟩ := hL
  have hbal := fun k => count_set_balance p.barbers i pc pc' (BarberPc.wake k) hpc
  cases pc <;> simp only [barber_func] at hf <;> simp only [Program.event, hpc]
  · -- acquire
    split at hf
    · cases hf
      simp only [Option.toList, Sys.run]
      refine ⟨σ, rfl, ⟨hag.1, hag.2, hag.3, hag.4, hag.5⟩, ?_⟩
      intro k
      have hk := htok k
      have hbal := hbal k
      simp at hbal
      simp only [hbal]
      exact hk
    · cases hf
  · -- dequeue
    cases hdq : barber_func_dequeue p.shop with
    | none => simp [hdq] at hf
    | some r =>
      obtain ⟨c, sh⟩ := r
      obtain ⟨u', hu', hag'⟩ := dequeue_agree p.shop σ.shop sh c hag hdq
      simp only [hdq, Option.some.injEq, Prod.mk.injEq] at hf
      obtain ⟨rfl, rfl⟩ := hf
      simp only [Option.toList, Sys.run, Sys.step, hu']
      refine ⟨_, rfl, hag', ?_⟩
      intro k
      have hk := htok k
      have hbal := hbal k
      simp only [List.count_append, List.count_singleton] at hbal ⊢
      by_cases e : c = k
      · subst e
        simp at hbal ⊢
        omega
      · have e' : ¬ k = c := fun h => e h.symm
        simp [e, e'] at hbal ⊢
        omega
  · -- wake
    rename_i c
    split at hf
    · rename_i hsem
      cases hf
      simp only [Option.toList, Sys.run]
      refine ⟨σ, rfl, hag, ?_⟩
      intro k
      have hk := htok k
      have hbal := hbal k
      by_cases e : k = c
      · subst e
        simp only [getD_set_self _ _ _ _ _ hsem, hsem, Option.getD_some] at hk ⊢
        simp at hbal
        omega
      · have e' : ¬ c = k := fun h => e h.symm
        simp only [List.getElem?_set_ne e']
        simp [e'] at hbal
        omega
    · cases hf
  · -- barberDone
    cases hf
    simp only [Option.toList, Sys.run]
    refine ⟨σ, rfl, hag, ?_⟩
    intro k
    have hk := htok k
    have hbal := hbal k
    simp at hbal
    simp only [hbal]
    exact hk
  · -- customerDone
    split at hf
    · cases hf
      simp only [Option.toList, Sys.run]
      refine ⟨σ, rfl, hag, ?_⟩
      intro k
      have hk := htok k
      have hbal := hbal k
      simp at hbal
      simp only [hbal]
      exact hk
    · cases hf
  · -- payed
    split at hf
    · cases hf
      simp only [Option.toList, Sys.run]
      refine ⟨σ, rfl, hag, ?_⟩
      intro k
      have hk := htok k
      have hbal := hbal k
      simp at hbal
      simp only [hbal]
      exact hk
    · cases hf
  · -- accept
    cases hf
    simp only [Option.toList, Sys.run]
    refine ⟨σ, rfl, hag, ?_⟩
    intro k
    have hk := htok k
    have hbal := hbal k
    simp at hbal
    simp only [hbal]
    exact hk

theorem link_step (p p' : Program) (σ : Sys) (t : Thread) (hL : p.Link σ)
    (h : p.step t = some p') :
    ∃ σ', Sys.run σ (p.event t).toList = some σ' ∧ p'.Link σ' := by
  cases t with
  | customer tid =>
    simp only [Program.step] at h
    cases hpc : p.customer_threads[tid]? with
    | none => simp [hpc] at h
    | some pc =>
      simp only [hpc] at h
      cases hf : customer_func tid pc p with
      | none => simp [hf] at h
      | some r =>
        obtain ⟨pc', q⟩ := r
        simp only [hf, Option.some.injEq] at h
        subst h
        exact link_customer p q σ tid pc pc' hL hpc hf
  | barber i =>
    simp only [Program.step] at h
    cases hpc : p.barbers[i]? with
    | none => simp [hpc] at h
    | some pc =>
      simp only [hpc] at h
      cases hf : barber_func pc p with
      | none => simp [hf] at h
      | some r =>
        obtain ⟨pc', q⟩ := r
        simp only [hf, Option.some.injEq] at h
        subst h
        exact link_barber p q σ i pc pc' hL hpc hf

theorem sys_run_append :
    ∀ (a b : List Event) (σ : Sys),
      Sys.run σ (a ++ b) = (Sys.run σ a).bind (fun σ' => Sys.run σ' b) := by
  intro a
  induction a with
  | nil => intro b σ; simp [Sys.run]
  | cons e es ih =>
    intro b σ
    simp only [List.cons_append, Sys.run]
    cases hs : Sys.step σ e with
    | none => simp
    | some σ₁ => simp [ih]

theorem link_run :
    ∀ (ts : List Thread) (p p' : Program) (σ : Sys), p.Link σ →
      Program.run p ts = some p' →
      ∃ σ', Sys.run σ (Program.events p ts) = some σ' ∧ p'.Link σ' := by
  intro ts
  induction ts with
  | nil =>
    intro p p' σ hL h
    simp only [Program.run, Option.some.injEq] at h
    subst h
    exact ⟨σ, rfl, hL⟩
  | cons t ts ih =>
    intro p p' σ hL h
    simp only [Program.run] at h
    cases hs : Program.step p t with
    | none => simp [hs] at h
    | some p₁ =>
      simp only [hs] at h
      obtain ⟨σ₁, h1, hL₁⟩ := link_step p p₁ σ t hL hs
      obtain ⟨σ', h2, hL'⟩ := ih p₁ p' σ₁ hL₁ h
      refine ⟨σ', ?_, hL'⟩
      simp only [Program.events, hs]
      rw [sys_run_append, h1]
      exact h2

theorem link_init (n : Nat) : (Program.init n).Link Sys.init := by
  refine ⟨⟨rfl, rfl, rfl, rfl, rfl⟩, ?_⟩
  intro k
  simp only [Program.init, Sys.init, List.count_nil]
  have h1 : (List.replicate 3 BarberPc.acquire).count (BarberPc.wake k) = 0 := by
    simp [List.count_replicate]
  have h2 : ((List.replicate n (0 : Nat))[k]?).getD 0 = 0 := by
    simp [List.getElem?_replicate]
    split <;> rfl
  have h3 : (((List.replicate n CustomerPc.arrive)[k]?).getD CustomerPc.gone).inChair
      = false := by
    simp only [List.getElem?_replicate]
    split <;> rfl
  simp only [h1, h2, h3]
  simp

/-- Every interleaving of the program is, on the shop, a run of the critical-section
system: the critical sections it executes, in order, are enabled there (in particular
a client departs only after a barber has dequeued it) and lead to a shop with the same
occupancy counter and the same two queues. -/
theorem program_refines_sys (n : Nat) (ts : List Thread) (p : Program)
    (h : Program.run (Program.init n) ts = some p) :
    ∃ σ : Sys, Sys.run Sys.init (Program.events (Program.init n) ts) = some σ
      ∧ σ.shop.customers = p.shop.customers ∧ σ.shop.sofa = p.shop.sofa
      ∧ σ.shop.standing = p.shop.standing := by
  obtain ⟨σ, hrun, hL⟩ := link_run ts _ p Sys.init (link_init n) h
  exact ⟨σ, hrun, hL.shop.customers.symm, hL.shop.sofa.symm, hL.shop.standing.symm⟩

/-- In every state the program reaches, `sofa.size() + standing.size() <= customers
<= cap`. -/
theorem program_occupancy (n : Nat) (ts : List Thread) (p : Program)
    (h : Program.run (Program.init n) ts = some p) :
    (p.shop.sofa.length : Int) + p.shop.standing.length ≤ p.shop.customers
      ∧ p.shop.customers ≤ cap := by
  obtain ⟨σ, hrun, h1, h2, h3⟩ := program_refines_sys n ts p h
  have hI := sys_inv_of_reachable σ ⟨_, hrun⟩
  have ho := hI.occupancy
  have hb := hI.bounded
  rw [← h1, ← h2, ← h3]
  exact ⟨by omega, hb⟩

/-! ## A rejected client never enters a tier -/

theorem admitted_stable_step (σ σ' : Sys) (e : Event) (tid : Client)
    (h : Sys.step σ e = some σ') (he : e ≠ Event.arrive tid) (hn : tid ∉ σ.admitted) :
    tid ∉ σ'.admitted := by
  cases e with
  | arrive t =>
    have hne : tid ≠ t := fun hh => he (by rw [hh])
    simp only [Sys.step] at h
    cases hf : customer_func_admission t σ.shop with
    | none => simp [hf] at h
    | some r =>
      obtain ⟨p, sh⟩ := r
      cases p <;> simp only [hf, Option.some.injEq] at h <;> subst h <;> simp [hn, hne]
  | dequeue =>
    simp only [Sys.step] at h
    cases hf : barber_func_dequeue σ.shop with
    | none => simp [hf] at h
    | some r =>
      obtain ⟨c, sh⟩ := r
      simp only [hf, Option.some.injEq] at h
      subst h
      exact hn
  | leave t =>
    simp only [Sys.step] at h
    by_cases hm : t ∈ σ.inService
    · simp only [hm, if_true] at h
      cases hf : customer_func_departure σ.shop with
      | none => simp [hf] at h
      | some r =>
        obtain ⟨c, sh⟩ := r
        simp only [hf, Option.some.injEq] at h
        subst h
        exact hn
    · simp [hm] at h

theorem admitted_stable_run (tid : Client) :
    ∀ (es : List Event) (σ σ' : Sys), Sys.run σ es = some σ' → Event.arrive tid ∉ es →
      tid ∉ σ.admitted → tid ∉ σ'.admitted := by
  intro es
  induction es with
  | nil =>
    intro σ σ' h _ hn
    simp only [Sys.run, Option.some.injEq] at h
    subst h
    exact hn
  | cons e es ih =>
    intro σ σ' h hes hn
    simp only [Sys.run] at h
    cases hs : Sys.step σ e with
    | none => simp [hs] at h
    | some σ₁ =>
      simp only [hs] at h
      have he : e ≠ Event.arrive tid := fun hh => hes (by simp [hh])
      have hes' : Event.arrive tid ∉ es := fun hh => hes (List.mem_cons_of_mem _ hh)
      exact ih σ₁ σ' h hes' (admitted_stable_step σ σ₁ e tid hs he hn)

/-- A client thread that arrives at a full shop, in any reachable state, is rejected
and is in neither tier at any later time (its thread has returned, so it does not
arrive again). -/
theorem rejected_client_stays_out (es₀ : List Event) (σ : Sys) (tid : Client)
    (h : Sys.run Sys.init es₀ = some σ) (hfull : σ.shop.customers = cap)
    (hnew : tid ∉ σ.admitted) :
    ∃ σ₁ : Sys, Sys.step σ (Event.arrive tid) = some σ₁
      ∧ σ₁.shop.sofa = σ.shop.sofa ∧ σ₁.shop.standing = σ.shop.standing
      ∧ ∀ (es : List Event) (σ₂ : Sys), Event.arrive tid ∉ es →
          Sys.run σ₁ es = some σ₂ → tid ∉ σ₂.shop.sofa ∧ tid ∉ σ₂.shop.standing := by
  have hI := sys_inv_of_reachable σ ⟨es₀, h⟩
  have hstep : Sys.step σ (Event.arrive tid)
      = some { σ with shop := { σ.shop with customers_done := σ.shop.customers_done + 1 } } := by
    simp [Sys.step, admission_unlocked tid σ.shop hI.unlocked, hfull]
  refine ⟨_, hstep, rfl, rfl, ?_⟩
  intro es σ₂ hes hrun
  have hI₁ := sys_inv_step σ _ _ hI hstep
  have hI₂ := sys_run_preserves Sys.Inv sys_inv_step es _ σ₂ hI₁ hrun
  have hn₂ := admitted_stable_run tid es _ σ₂ hrun hes hnew
  rw [hI₂.order, hI₂.fifo] at hn₂
  simp only [List.mem_append, not_or] at hn₂
  exact ⟨hn₂.1.2, hn₂.2⟩

/-! ## The claims about the barbershop -/

/-- C1 (fails on the code): the run "clients 1-4 arrive and sit, a barber dequeues
client 1, client 5 arrives and takes the free sofa slot, client 6 arrives and stands,
client 1 leaves" ends with five clients on the sofa, because the promotion at
departure (lines 191-199) pushes onto `sofa` without the `sofa.size() < 4` test that
admission performs (line 149).  Hence `sofa.size() <= 4` is not an invariant.  The
same happens in the interleaving `overfullSchedule` of the whole program, handshake and
payment included (there the thread ids are 0-5). -/
theorem sofa_exceeds_seating_capacity :
    (∃ σ : Sys, Sys.run Sys.init [Event.arrive 1, Event.arrive 2, Event.arrive 3,
        Event.arrive 4, Event.dequeue, Event.arrive 5, Event.arrive 6, Event.leave 1] = some σ
      ∧ σ.shop.sofa = [2, 3, 4, 5, 6] ∧ σ.shop.standing = [] ∧ σ.shop.customers = 5)
    ∧ ¬ (∀ σ : Sys, σ.Reachable → σ.shop.sofa.length ≤ 4)
    ∧ (∃ p : Program, Program.run (Program.init 6) overfullSchedule = some p
      ∧ p.shop.sofa = [1, 2, 3, 4, 5] ∧ p.shop.customers = 5) := by
  have hrun : Sys.run Sys.init [Event.arrive 1, Event.arrive 2, Event.arrive 3,
      Event.arrive 4, Event.dequeue, Event.arrive 5, Event.arrive 6, Event.leave 1]
      = some { shop := { customers := 5, customers_done := 1, sofa := [2, 3, 4, 5, 6],
                         standing := [], customer := 6, count := false },
               inService := [], admitted := [1, 2, 3, 4, 5, 6],
               seated := [1, 2, 3, 4, 5, 6], served := [1] } := by decide
  have hprog : Program.run (Program.init 6) overfullSchedule = some overfullState := by
    decide
  refine ⟨⟨_, hrun, rfl, rfl, rfl⟩, ?_, ⟨_, hprog, rfl, rfl⟩⟩
  intro hall
  have := hall _ ⟨_, hrun⟩
  simp at this

/-- C2: at every state reached from the initial one by a sequence of critical sections
(admission or rejection, dequeue, departure of a dequeued client),
`sofa.size() + standing.size() <= customers <= cap = 20`. -/
theorem occupancy_within_capacity (es : List Event) (σ : Sys)
    (h : Sys.run Sys.init es = some σ) :
    (σ.shop.sofa.length : Int) + σ.shop.standing.length ≤ σ.shop.customers
      ∧ σ.shop.customers ≤ cap ∧ cap = 20
      ∧ σ.shop.sofa.length + σ.shop.standing.length ≤ 20 := by
  have hI := sys_inv_of_reachable σ ⟨es, h⟩
  have ho := hI.occupancy
  have hb : σ.shop.customers ≤ 20 := hI.bounded
  exact ⟨by omega, hI.bounded, rfl, by omega⟩

/-- Witness for C2: a run in which one client is in each tier and one is in service. -/
theorem occupancy_within_capacity_witness :
    Sys.run Sys.init [Event.arrive 1, Event.arrive 2, Event.arrive 3, Event.arrive 4,
        Event.arrive 5, Event.arrive 6, Event.dequeue]
      = some { shop := { customers := 6, customers_done := 0, sofa := [2, 3, 4],
                         standing := [5, 6], customer := 4, count := false },
               inService := [1], admitted := [1, 2, 3, 4, 5, 6],
               seated := [1, 2, 3, 4], served := [1] }
    ∧ ((3 : Int) + 2 ≤ 6 ∧ (6 : Int) ≤ cap ∧ cap = 20 ∧ 3 + 2 ≤ 20) :=
  ⟨by decide, occupancy_within_capacity
    [Event.arrive 1, Event.arrive 2, Event.arrive 3, Event.arrive 4,
        Event.arrive 5, Event.arrive 6, Event.dequeue]
    { shop := { customers := 6, customers_done := 0, sofa := [2, 3, 4],
                standing := [5, 6], customer := 4, count := false },
      inService := [1], admitted := [1, 2, 3, 4, 5, 6],
      seated := [1, 2, 3, 4], served := [1] } (by decide)⟩

/-- C3: on a shop with `customers == cap` (and the mutex free, so that the section
runs), admission rejects: the counter, both queues and the semaphore `customer` are
unchanged, `customers_done` grows by one, the mutex is free again, and a client that
was in neither queue is in neither queue afterwards. -/
theorem admission_rejects_when_full (tid : Client) (s : Shop)
    (hfree : s.count = false) (hfull : s.customers = cap) :
    ∃ s' : Shop, customer_func_admission tid s = some (Placement.rejected, s')
      ∧ s'.customers = s.customers ∧ s'.sofa = s.sofa ∧ s'.standing = s.standing
      ∧ s'.customer = s.customer ∧ s'.customers_done = s.customers_done + 1
      ∧ s'.count = false
      ∧ (tid ∉ s.sofa → tid ∉ s.standing → tid ∉ s'.sofa ∧ tid ∉ s'.standing) := by
  refine ⟨{ s with customers_done := s.customers_done + 1 }, ?_, rfl, rfl, rfl, rfl, rfl,
    hfree, fun h1 h2 => ⟨h1, h2⟩⟩
  rw [admission_unlocked tid s hfree]
  simp [hfull]

/-- Witness for C3: a full shop (4 seated, 16 standing) rejects client 99. -/
theorem admission_rejects_when_full_witness :
    ∃ s' : Shop, customer_func_admission 99
        { customers := 20, customers_done := 7, sofa := [1, 2, 3, 4],
          standing := List.range 16, customer := 4, count := false }
        = some (Placement.rejected, s')
      ∧ s'.customers = 20 ∧ s'.sofa = [1, 2, 3, 4] ∧ s'.standing = List.range 16
      ∧ s'.customer = 4 ∧ s'.customers_done = 7 + 1
      ∧ s'.count = false
      ∧ (99 ∉ [1, 2, 3, 4] → 99 ∉ List.range 16 → 99 ∉ s'.sofa ∧ 99 ∉ s'.standing) :=
  admission_rejects_when_full 99
    { customers := 20, customers_done := 7, sofa := [1, 2, 3, 4],
      standing := List.range 16, customer := 4, count := false } rfl (by decide)

/-- C4: on a shop with `customers != cap` (mutex free), admission never rejects: it
adds one to `customers` and appends the client to exactly one queue: to the back of
`sofa`, releasing `customer` once, if `sofa.size() < 4` and `standing` is empty; to the
back of `standing`, with `sofa` and `customer` unchanged, otherwise. -/
theorem admission_places_client (tid : Client) (s : Shop)
    (hfree : s.count = false) (hroom : s.customers ≠ cap) :
    ∃ (p : Placement) (s' : Shop), customer_func_admission tid s = some (p, s')
      ∧ p ≠ Placement.rejected
      ∧ s'.customers = s.customers + 1 ∧ s'.customers_done = s.customers_done
      ∧ s'.count = false
      ∧ (s.sofa.length < 4 ∧ s.standing = [] →
          p = Placement.sofa ∧ s'.sofa = s.sofa ++ [tid] ∧ s'.standing = s.standing
            ∧ s'.customer = s.customer + 1)
      ∧ (¬ (s.sofa.length < 4 ∧ s.standing = []) →
          p = Placement.standing ∧ s'.standing = s.standing ++ [tid] ∧ s'.sofa = s.sofa
            ∧ s'.customer = s.customer) := by
  rw [admission_unlocked tid s hfree]
  by_cases h2 : s.sofa.length < 4 ∧ s.standing = []
  · refine ⟨Placement.sofa, { s with customers := s.customers + 1, sofa := s.sofa ++ [tid],
                                      customer := s.customer + 1 }, ?_, ?_⟩
    · simp only [hroom, h2, if_false, if_true, and_self]
    · simp [h2, hfree]
  · refine ⟨Placement.standing, { s with customers := s.customers + 1,
                                          standing := s.standing ++ [tid] }, ?_, ?_⟩
    · simp only [hroom, h2, if_false]
    · simp [h2, hfree]

/-- Witness for C4: with 19 clients inside (4 seated, 12 standing, 3 in service) the
arriving client 99 is admitted, to the standing queue. -/
theorem admission_places_client_witness :
    ∃ (p : Placement) (s' : Shop), customer_func_admission 99
        { customers := 19, customers_done := 0, sofa := [1, 2, 3, 4],
          standing := List.range 12, customer := 4, count := false } = some (p, s')
      ∧ p ≠ Placement.rejected
      ∧ s'.customers = 19 + 1 ∧ s'.customers_done = 0
      ∧ s'.count = false
      ∧ ([1, 2, 3, 4].length < 4 ∧ List.range 12 = [] →
          p = Placement.sofa ∧ s'.sofa = [1, 2, 3, 4] ++ [99] ∧ s'.standing = List.range 12
            ∧ s'.customer = 4 + 1)
      ∧ (¬ ([1, 2, 3, 4].length < 4 ∧ List.range 12 = []) →
          p = Placement.standing ∧ s'.standing = List.range 12 ++ [99]
            ∧ s'.sofa = [1, 2, 3, 4] ∧ s'.customer = 4) :=
  admission_places_client 99
    { customers := 19, customers_done := 0, sofa := [1, 2, 3, 4],
      standing := List.range 12, customer := 4, count := false } rfl (by decide)

/-- C5: on every shop (mutex free), departure subtracts one from `customers` and, in
the same critical section: if `standing` is `c :: rest`, removes exactly the head `c`,
appends it to the back of `sofa`, leaves `rest` in order and releases `customer` once;
if `standing` is empty, leaves both queues and `customer` unchanged. -/
theorem departure_promotes_head (s : Shop) (hfree : s.count = false) :
    ∃ (promoted : Option Client) (s' : Shop),
      customer_func_departure s = some (promoted, s')
      ∧ s'.customers = s.customers - 1 ∧ s'.customers_done = s.customers_done + 1
      ∧ s'.count = false
      ∧ (∀ c rest, s.standing = c :: rest →
          promoted = some c ∧ s'.standing = rest ∧ s'.sofa = s.sofa ++ [c]
            ∧ s'.customer = s.customer + 1)
      ∧ (s.standing = [] →
          promoted = none ∧ s'.standing = [] ∧ s'.sofa = s.sofa
            ∧ s'.customer = s.customer) := by
  rw [departure_unlocked s hfree]
  cases hs : s.standing with
  | nil => exact ⟨none, _, rfl, rfl, rfl, hfree, by simp, by simp [hs]⟩
  | cons c rest =>
    refine ⟨some c, _, rfl, rfl, rfl, hfree, ?_, by simp⟩
    intro c' rest' heq
    injection heq with h1 h2
    subst h1 h2
    simp

/-- Witness for C5: a departure that promotes client 7 from the head of `standing`. -/
theorem departure_promotes_head_witness :
    ∃ (promoted : Option Client) (s' : Shop),
      customer_func_departure
        { customers := 6, customers_done := 2, sofa := [4, 5, 6], standing := [7, 8],
          customer := 3, count := false } = some (promoted, s')
      ∧ s'.customers = 6 - 1 ∧ s'.customers_done = 2 + 1
      ∧ s'.count = false
      ∧ (∀ c rest, [7, 8] = c :: rest →
          promoted = some c ∧ s'.standing = rest ∧ s'.sofa = [4, 5, 6] ++ [c]
            ∧ s'.customer = 3 + 1)
      ∧ (([7, 8] : List Client) = [] →
          promoted = none ∧ s'.standing = [] ∧ s'.sofa = [4, 5, 6]
            ∧ s'.customer = 3) :=
  departure_promotes_head
    { customers := 6, customers_done := 2, sofa := [4, 5, 6], standing := [7, 8],
      customer := 3, count := false } rfl

/-- C6: service from the sofa is strict FIFO.  In every execution the clients popped
from `sofa` so far, followed by the clients now on `sofa`, are exactly the clients
pushed onto `sofa` so far, in order; so the popped sequence is an initial segment of the
pushed sequence, and if `a` was pushed (position `i`) before `b` (position `j`) and `b`
has been popped, then `a` was popped too, as the `i`-th pop, before `b`, the `j`-th. -/
theorem sofa_service_is_fifo (es : List Event) (σ : Sys)
    (h : Sys.run Sys.init es = some σ) :
    σ.seated = σ.served ++ σ.shop.sofa
      ∧ σ.served <+: σ.seated
      ∧ ∀ (i j : Nat) (a b : Client), i < j →
          σ.seated[i]? = some a → σ.seated[j]? = some b → j < σ.served.length →
          σ.served[i]? = some a ∧ σ.served[j]? = some b := by
  have hf := (sys_inv_of_reachable σ ⟨es, h⟩).fifo
  refine ⟨hf, ⟨σ.shop.sofa, hf.symm⟩, ?_⟩
  intro i j a b hij ha hb hj
  rw [hf] at ha hb
  rw [List.getElem?_append_left (by omega)] at ha
  rw [List.getElem?_append_left hj] at hb
  exact ⟨ha, hb⟩

/-- Witness for C6: six clients pushed, two popped; client 1 (position 0) and client 2
(position 1) were popped in that order. -/
theorem sofa_service_is_fifo_witness :
    ([1, 2, 3, 4, 5, 6] : List Client) = [1, 2] ++ [3, 4, 5, 6]
      ∧ ([1, 2] : List Client) <+: [1, 2, 3, 4, 5, 6]
      ∧ ∀ (i j : Nat) (a b : Client), i < j →
          ([1, 2, 3, 4, 5, 6] : List Client)[i]? = some a →
          ([1, 2, 3, 4, 5, 6] : List Client)[j]? = some b →
          j < ([1, 2] : List Client).length →
          ([1, 2] : List Client)[i]? = some a ∧ ([1, 2] : List Client)[j]? = some b :=
  sofa_service_is_fifo
    [Event.arrive 1, Event.arrive 2, Event.arrive 3, Event.arrive 4, Event.arrive 5,
      Event.arrive 6, Event.dequeue, Event.dequeue, Event.leave 2, Event.leave 1]
    { shop := { customers := 4, customers_done := 2, sofa := [3, 4, 5, 6],
                standing := [], customer := 6, count := false },
      inService := [], admitted := [1, 2, 3, 4, 5, 6],
      seated := [1, 2, 3, 4, 5, 6], served := [1, 2] } (by decide)

/-- C7: FIFO across the tiers.  In every execution the clients pushed onto `sofa` so
far, followed by the clients now in `standing`, are exactly the clients admitted so far,
in order of admission: clients enter the sofa in admission order, and whenever a
section pushes a client `c` onto the sofa, everybody still standing was admitted after
`c` and everybody admitted before `c` has been seated before. -/
theorem seating_follows_admission_order (es : List Event) (σ : Sys)
    (h : Sys.run Sys.init es = some σ) :
    σ.admitted = σ.seated ++ σ.shop.standing
      ∧ σ.seated <+: σ.admitted
      ∧ ∀ (e : Event) (σ' : Sys) (c : Client), Sys.step σ e = some σ' →
          σ'.seated = σ.seated ++ [c] →
          σ'.admitted = σ.seated ++ c :: σ'.shop.standing := by
  have hI := sys_inv_of_reachable σ ⟨es, h⟩
  refine ⟨hI.order, ⟨σ.shop.standing, hI.order.symm⟩, ?_⟩
  intro e σ' c hstep hseat
  have ho := (sys_inv_step σ e σ' hI hstep).order
  rw [ho, hseat]
  simp

/-- Witness for C7: clients 1-4 sit, 5 and 6 stand, 1 is dequeued; the departure of 1
then seats 5, the earliest admitted client not yet seated, and 6 keeps standing. -/
theorem seating_follows_admission_order_witness :
    ([1, 2, 3, 4, 5, 6] : List Client) = [1, 2, 3, 4] ++ [5, 6]
      ∧ ([1, 2, 3, 4] : List Client) <+: [1, 2, 3, 4, 5, 6]
      ∧ ∀ (e : Event) (σ' : Sys) (c : Client),
          Sys.step
            { shop := { customers := 6, customers_done := 0, sofa := [2, 3, 4],
                        standing := [5, 6], customer := 4, count := false },
              inService := [1], admitted := [1, 2, 3, 4, 5, 6],
              seated := [1, 2, 3, 4], served := [1] } e = some σ' →
          σ'.seated = [1, 2, 3, 4] ++ [c] →
          σ'.admitted = [1, 2, 3, 4] ++ c :: σ'.shop.standing :=
  seating_follows_admission_order
    [Event.arrive 1, Event.arrive 2, Event.arrive 3, Event.arrive 4, Event.arrive 5,
      Event.arrive 6, Event.dequeue]
    { shop := { customers := 6, customers_done := 0, sofa := [2, 3, 4],
                standing := [5, 6], customer := 4, count := false },
      inService := [1], admitted := [1, 2, 3, 4, 5, 6],
      seated := [1, 2, 3, 4], served := [1] } (by decide)

/-- C10: in every state the program reaches (each critical section of `count` being
one statement, any number of customer threads, the three barbers), the value of
`customer` plus the number of barbers that have acquired `customer` and not yet popped
equals `sofa.size()`; so a barber that is about to run `sofa.front(); sofa.pop()` finds
the sofa non-empty, pops its head, and the dequeue is defined. -/
theorem customer_tokens_match_sofa (n : Nat) (ts : List Thread) (p : Program)
    (h : Program.run (Program.init n) ts = some p) :
    p.shop.customer + p.claimed = p.shop.sofa.length
      ∧ ∀ i : Nat, p.barbers[i]? = some BarberPc.dequeue →
          ∃ (c : Client) (rest : List Client) (sh : Shop),
            p.shop.sofa = c :: rest
              ∧ barber_func_dequeue p.shop = some (c, sh) ∧ sh.sofa = rest
              ∧ (Program.step p (Thread.barber i)).isSome = true := by
  have hI := program_run_preserves Program.Inv program_inv_step ts _ p (program_inv_init n) h
  refine ⟨hI.tokens, ?_⟩
  intro i hi
  have hpos : 0 < p.claimed := by
    simp only [Program.claimed]
    exact List.count_pos_iff.2 (List.getElem?_mem hi)
  have ht := hI.tokens
  cases hs : p.shop.sofa with
  | nil =>
    rw [hs] at ht
    simp at ht
    omega
  | cons c rest =>
    refine ⟨c, rest, { p.shop with sofa := rest }, rfl, ?_, rfl, ?_⟩
    · rw [dequeue_unlocked p.shop hI.unlocked, hs]
    · simp [Program.step, hi, barber_func, dequeue_unlocked p.shop hI.unlocked, hs]

/-- Witness for C10: two customers seated, barber 0 holds a token and is about to
pop. -/
theorem customer_tokens_match_sofa_witness :
    Program.run (Program.init 2) [Thread.customer 0, Thread.customer 1, Thread.barber 0]
        = some tokenState
      ∧ tokenState.shop.customer + tokenState.claimed = tokenState.shop.sofa.length
      ∧ ∀ i : Nat, tokenState.barbers[i]? = some BarberPc.dequeue →
          ∃ (c : Client) (rest : List Client) (sh : Shop),
            tokenState.shop.sofa = c :: rest
              ∧ barber_func_dequeue tokenState.shop = some (c, sh) ∧ sh.sofa = rest
              ∧ (Program.step tokenState (Thread.barber i)).isSome = true :=
  ⟨by decide, customer_tokens_match_sofa 2
    [Thread.customer 0, Thread.customer 1, Thread.barber 0] tokenState (by decide)⟩

end Barbershop

namespace H2O

/-! ## The invariant of the molecule engine -/

/-- The admissions issued in the iteration under way, by phase of the conductor. -/
theorem issued_cases (c : CondPc) :
    (c = CondPc.acqB → c.issued = 3) ∧ (c = CondPc.reset → c.issued = 3)
      ∧ (c ≠ CondPc.acqB → c ≠ CondPc.reset → c.issued ≤ 1) := by
  cases c <;> simp [CondPc.issued]

/-- Every statement of an atom, of either kind, keeps the gating invariant. -/
theorem gating_atom_step (m d q b m' d' q' b' : Nat) (c : CondPc) (l : List AtomPc) (j : Nat)
    (pc pc' : AtomPc) (hG : Gating m d q b c l) (hj : l[j]? = some pc)
    (hmove : AtomMove pc pc' m d q b m' d' q' b') :
    Gating m' d' q' b' c (l.set j pc') := by
  obtain ⟨hM, hP, hQ, hA, hR⟩ := hG
  have hb := fun x => count_set_balance l j pc pc' x hj
  have b1 := hb AtomPc.print
  have b2 := hb AtomPc.lock
  have b3 := hb AtomPc.incr
  have b4 := hb AtomPc.test
  have b5 := hb AtomPc.signal
  have b6 := hb AtomPc.unlock
  clear hb hj
  obtain ⟨i7, i8, i0⟩ := issued_cases c
  simp only [pending, holders] at hM hP
  by_cases h7 : c = CondPc.acqB
  · have hA' := hA h7
    have hi := i7 h7
    clear hQ hA hR i7 i8 i0
    cases hmove <;> simp at b1 b2 b3 b4 b5 b6 <;>
      refine ⟨?_, ?_, fun h => absurd h7 h, fun _ => ?_,
        fun h => absurd (h7.symm.trans h) (by decide)⟩ <;>
      (try simp only [pending, holders]) <;> omega
  · by_cases h8 : c = CondPc.reset
    · have hQ' := hQ h7
      have hR' := hR h8
      have hi := i8 h8
      clear hQ hA hR i7 i8 i0
      cases hmove <;> simp at b1 b2 b3 b4 b5 b6 <;>
        refine ⟨?_, ?_, fun _ => ?_, fun h => absurd h h7, fun _ => ?_⟩ <;>
        (try simp only [pending, holders]) <;> omega
    · have hQ' := hQ h7
      have hi := i0 h7 h8
      clear hQ hA hR i7 i8 i0
      cases hmove <;> simp at b1 b2 b3 b4 b5 b6 <;>
        refine ⟨?_, ?_, fun _ => ?_, fun h => absurd h h7, fun h => absurd h h8⟩ <;>
        (try simp only [pending, holders]) <;> omega

theorem pending_append (a b : List AtomPc) : pending (a ++ b) = pending a + pending b := by
  simp only [pending, List.count_append]
  omega

/-- Every atom is admitted, or still at `arrive` or `queue`. -/
theorem admitted_add (l : List AtomPc) :
    admitted l + l.count AtomPc.arrive + l.count AtomPc.queue = l.length := by
  induction l with
  | nil => simp [admitted]
  | cons p l ih =>
    simp only [admitted, List.count_cons, List.length_cons] at ih ⊢
    cases p <;> simp <;> omega

theorem admitted_set (l : List AtomPc) (i : Nat) (pc pc' : AtomPc) (h : l[i]? = some pc) :
    admitted (l.set i pc')
        + ((if pc' = AtomPc.arrive then 1 else 0) + (if pc' = AtomPc.queue then 1 else 0))
      = admitted l
        + ((if pc = AtomPc.arrive then 1 else 0) + (if pc = AtomPc.queue then 1 else 0)) := by
  have h1 := admitted_add l
  have h2 := admitted_add (l.set i pc')
  have b1 := count_set_balance l i pc pc' AtomPc.arrive h
  have b2 := count_set_balance l i pc pc' AtomPc.queue h
  simp only [List.length_set] at h2
  omega

theorem count_replicate_arrive (n : Nat) (q : AtomPc) (h : q ≠ AtomPc.arrive) :
    (List.replicate n AtomPc.arrive).count q = 0 := by
  simp [List.count_replicate, h.symm]

theorem inv_init (T nO nH : Nat) : Inv T (State.init nO nH) := by
  refine ⟨⟨?_, ?_, ?_, ?_, ?_⟩, ?_, ?_, ?_, ?_⟩ <;>
    simp [State.init, holders, pending, admitted, count_replicate_arrive, CondPc.issued,
      CondPc.gaveO, CondPc.gaveH, CondPc.inBody]

/-- The effect of a statement of `oxy_func` on the variables of the invariant. -/
theorem oxy_func_move (pc pc' : AtomPc) (v v' : Vars) (hf : oxy_func pc v = some (pc', v')) :
    AtomMove pc pc' v.mutex v.done (v.oxygen_queue + v.hydrogen_queue) v.bonded
        v'.mutex v'.done (v'.oxygen_queue + v'.hydrogen_queue) v'.bonded
      ∧ v'.molecules_completed = v.molecules_completed
      ∧ v'.hydrogen_queue = v.hydrogen_queue
      ∧ v'.oxygen_queue + (if pc = AtomPc.queue then 1 else 0) = v.oxygen_queue
      ∧ ((if pc' = AtomPc.arrive then 1 else 0) + (if pc' = AtomPc.queue then 1 else 0)
          + (if pc = AtomPc.queue then 1 else 0)
        = (if pc = AtomPc.arrive then 1 else 0) + (if pc = AtomPc.queue then 1 else 0)) := by
  cases pc <;> simp only [oxy_func] at hf
  · cases hf
    exact ⟨AtomMove.arrive _ _ _ _, by simp⟩
  · split at hf
    · cases hf
      refine ⟨AtomMove.queue _ _ _ _ _ (by simp only []; omega), ?_⟩
      simp
      omega
    · cases hf
  · cases hf
    exact ⟨AtomMove.print _ _ _ _, by simp⟩
  · split at hf
    · cases hf
      exact ⟨AtomMove.lock _ _ _ _ _ (by simp only []; omega), by simp⟩
    · cases hf
  · cases hf
    exact ⟨AtomMove.incr _ _ _ _, by simp⟩
  · split at hf
    · cases hf
      exact ⟨AtomMove.third _ _ _ _ (by assumption), by simp⟩
    · cases hf
      exact ⟨AtomMove.early _ _ _ _ (by assumption), by simp⟩
  · cases hf
    exact ⟨AtomMove.signal _ _ _ _, by simp⟩
  · cases hf
    exact ⟨AtomMove.unlock _ _ _ _, by simp⟩
  · cases hf

/-- The effect of a statement of `hyd_func` on the variables of the invariant. -/
theorem hyd_func_move (pc pc' : AtomPc) (v v' : Vars) (hf : hyd_func pc v = some (pc', v')) :
    AtomMove pc pc' v.mutex v.done (v.oxygen_queue + v.hydrogen_queue) v.bonded
        v'.mutex v'.done (v'.oxygen_queue + v'.hydrogen_queue) v'.bonded
      ∧ v'.molecules_completed = v.molecules_completed
      ∧ v'.oxygen_queue = v.oxygen_queue
      ∧ v'.hydrogen_queue + (if pc = AtomPc.queue then 1 else 0) = v.hydrogen_queue
      ∧ ((if pc' = AtomPc.arrive then 1 else 0) + (if pc' = AtomPc.queue then 1 else 0)
          + (if pc = AtomPc.queue then 1 else 0)
        = (if pc = AtomPc.arrive then 1 else 0) + (if pc = AtomPc.queue then 1 else 0)) := by
  cases pc <;> simp only [hyd_func] at hf
  · cases hf
    exact ⟨AtomMove.arrive _ _ _ _, by simp⟩
  · split at hf
    · cases hf
      refine ⟨AtomMove.queue _ _ _ _ _ (by simp only []; omega), ?_⟩
      simp
      omega
    · cases hf
  · cases hf
    exact ⟨AtomMove.print _ _ _ _, by simp⟩
  · split at hf
    · cases hf
      exact ⟨AtomMove.lock _ _ _ _ _ (by simp only []; omega), by simp⟩
    · cases hf
  · cases hf
    exact ⟨AtomMove.incr _ _ _ _, by simp⟩
  · split at hf
    · cases hf
      exact ⟨AtomMove.third _ _ _ _ (by assumption), by simp⟩
    · cases hf
      exact ⟨AtomMove.early _ _ _ _ (by assumption), by simp⟩
  · cases hf
    exact ⟨AtomMove.signal _ _ _ _, by simp⟩
  · cases hf
    exact ⟨AtomMove.unlock _ _ _ _, by simp⟩
  · cases hf

theorem idle_atom_step (l : List AtomPc) (i : Nat) (pc pc' : AtomPc)
    (m d q b m' d' q' b' hq hq' : Nat) (hj : l[i]? = some pc)
    (hmove : AtomMove pc pc' m d q b m' d' q' b')
    (hh : hq' + (if pc = AtomPc.queue then 1 else 0) = hq)
    (j1 : hq = 0) (j2 : pending l = 0) :
    hq' = 0 ∧ pending (l.set i pc') = 0 := by
  have b1 := count_set_balance l i pc pc' AtomPc.print hj
  have b2 := count_set_balance l i pc pc' AtomPc.lock hj
  have b3 := count_set_balance l i pc pc' AtomPc.incr hj
  simp only [pending] at j2 ⊢
  cases hmove <;> simp at b1 b2 b3 hh <;> omega

theorem inv_step_oxygen (T : Nat) (s : State) (i : Nat) (pc pc' : AtomPc) (v : Vars)
    (hI : Inv T s) (hpc : s.oxygens[i]? = some pc)
    (hf : oxy_func pc s.vars = some (pc', v)) :
    Inv T { s with vars := v, oxygens := s.oxygens.set i pc' } := by
  obtain ⟨hG, hT, hO, hH, hJ⟩ := hI
  obtain ⟨hmove, hmc, hhq, hoq, hadm⟩ := oxy_func_move pc pc' s.vars v hf
  have hlt := getElem?_lt _ _ _ hpc
  have hset := admitted_set s.oxygens i pc pc' hpc
  refine ⟨?_, ?_, ?_, ?_, ?_⟩
  · have hj : (s.oxygens ++ s.hydrogens)[i]? = some pc := by
      rw [List.getElem?_append_left hlt]
      exact hpc
    have := gating_atom_step _ _ _ _ _ _ _ _ _ _ i pc pc' hG hj hmove
    rw [← List.set_append_left i pc' hlt] 
    exact this
  · simp only [hmc]
    exact hT
  · simp only [hmc]
    omega
  · simp only [hmc, hhq]
    exact hH
  · simp only [hhq]
    exact hJ

theorem inv_step_hydrogen (T : Nat) (s : State) (i : Nat) (pc pc' : AtomPc) (v : Vars)
    (hI : Inv T s) (hpc : s.hydrogens[i]? = some pc)
    (hf : hyd_func pc s.vars = some (pc', v)) :
    Inv T { s with vars := v, hydrogens := s.hydrogens.set i pc' } := by
  obtain ⟨hG, hT, hO, hH, hJ⟩ := hI
  obtain ⟨hmove, hmc, hoq, hhq, hadm⟩ := hyd_func_move pc pc' s.vars v hf
  have hset := admitted_set s.hydrogens i pc pc' hpc
  refine ⟨?_, ?_, ?_, ?_, ?_⟩
  · have hj : (s.oxygens ++ s.hydrogens)[s.oxygens.length + i]? = some pc := by
      rw [List.getElem?_append_right (by omega)]
      simpa using hpc
    have := gating_atom_step _ _ _ _ _ _ _ _ _ _ (s.oxygens.length + i) pc pc' hG hj hmove
    rw [List.set_append_right _ _ (by omega)] at this
    simpa using this
  · simp only [hmc]
    exact hT
  · simp only [hmc, hoq]
    exact hO
  · simp only [hmc]
    omega
  · intro h7 h8
    obtain ⟨j1, j2⟩ := hJ h7 h8
    exact idle_atom_step _ _ _ _ _ _ _ _ _ _ _ _ _ _ hpc hmove hhq j1 j2

set_option maxHeartbeats 1000000 in
theorem inv_step_conductor (T : Nat) (s : State) (pc : CondPc) (v : Vars)
    (hI : Inv T s) (hf : conductor_func T s.conductor s.vars = some (pc, v)) :
    Inv T { s with vars := v, conductor := pc } := by
  obtain ⟨⟨hM, hP, hQ, hA, hR⟩, hT, hO, hH, hJ⟩ := hI
  rw [pending_append] at hP
  cases hc : s.conductor <;> rw [hc] at hf hP hQ hA hR hT hO hH hJ <;>
    simp only [conductor_func] at hf <;> (try split at hf) <;> cases hf <;>
    simp [CondPc.issued, CondPc.gaveO, CondPc.gaveH, CondPc.inBody]
      at hP hQ hA hR hT hO hH hJ <;>
    refine ⟨⟨?_, ?_, ?_, ?_, ?_⟩, ?_, ?_, ?_, ?_⟩ <;>
    simp [CondPc.issued, CondPc.gaveO, CondPc.gaveH, CondPc.inBody, pending_append] <;>
    omega

/-- Every statement of every thread keeps the invariant. -/
theorem inv_step (T : Nat) (s : State) (t : Tid) (s' : State) (hI : Inv T s)
    (h : step T s t = some s') : Inv T s' := by
  cases t with
  | conductor =>
    simp only [step] at h
    cases hf : conductor_func T s.conductor s.vars with
    | none => simp [hf] at h
    | some r =>
      obtain ⟨pc, v⟩ := r
      simp only [hf, Option.some.injEq] at h
      subst h
      exact inv_step_conductor T s pc v hI hf
  | oxygen i =>
    simp only [step] at h
    cases hpc : s.oxygens[i]? with
    | none => simp [hpc] at h
    | some pc =>
      simp only [hpc] at h
      cases hf : oxy_func pc s.vars with
      | none => simp [hf] at h
      | some r =>
        obtain ⟨pc', v⟩ := r
        simp only [hf, Option.some.injEq] at h
        subst h
        exact inv_step_oxygen T s i pc pc' v hI hpc hf
  | hydrogen i =>
    simp only [step] at h
    cases hpc : s.hydrogens[i]? with
    | none => simp [hpc] at h
    | some pc =>
      simp only [hpc] at h
      cases hf : hyd_func pc s.vars with
      | none => simp [hf] at h
      | some r =>
        obtain ⟨pc', v⟩ := r
        simp only [hf, Option.some.injEq] at h
        subst h
        exact inv_step_hydrogen T s i pc pc' v hI hpc hf

theorem run_preserves_inv (T : Nat) :
    ∀ (sched : List Tid) (s s' : State), Inv T s → run T s sched = some s' → Inv T s' := by
  intro sched
  induction sched with
  | nil =>
    intro s s' hI h
    simp only [run, Option.some.injEq] at h
    subst h
    exact hI
  | cons t ts ih =>
    intro s s' hI h
    simp only [run] at h
    cases hs : step T s t with
    | none => simp [hs] at h
    | some s₁ =>
      simp only [hs] at h
      exact ih s₁ s' (inv_step T s t s₁ hI hs) h

/-- A quantity that every statement raises by exactly the statement's weight is, at
the end of a run, its initial value plus the tally of the weight. -/
theorem tally_potential (T : Nat) (w : Tid → State → State → Nat) (Φ : State → Nat)
    (hstep : ∀ s t s', step T s t = some s' → Φ s' = Φ s + w t s s') :
    ∀ (sched : List Tid) (s s' : State), run T s sched = some s' →
      Φ s' = Φ s + tally T w s sched := by
  intro sched
  induction sched with
  | nil =>
    intro s s' h
    simp only [run, Option.some.injEq] at h
    subst h
    simp [tally]
  | cons t ts ih =>
    intro s s' h
    simp only [run] at h
    cases hs : step T s t with
    | none => simp [hs] at h
    | some s₁ =>
      simp only [hs] at h
      have h1 := hstep s t s₁ hs
      have h2 := ih s₁ s' h
      simp only [tally, hs]
      omega

theorem atomMove_bonded (pc pc' : AtomPc) (m d q b m' d' q' b' : Nat)
    (h : AtomMove pc pc' m d q b m' d' q' b') : b ≤ b' := by
  cases h <;> omega

theorem ledger_conductor (T : Nat) (s : State) (pc : CondPc) (v : Vars)
    (hf : conductor_func T s.conductor s.vars = some (pc, v)) :
    Ledger Tid.conductor s { s with vars := v, conductor := pc } := by
  cases hc : s.conductor <;> rw [hc] at hf <;>
    simp only [conductor_func] at hf <;> (try split at hf) <;> cases hf <;>
    constructor <;>
    simp [hc, bodyEntered, oxygenTaken, hydrogenTaken, oxygenAdmitted, hydrogenAdmitted,
      bondedReleased, CondPc.inBody, CondPc.tookO, CondPc.tookH, CondPc.gaveO, CondPc.gaveH,
      CondPc.gotB] <;>
    omega

/-- Every statement of every thread balances the six accounts. -/
theorem ledger_step (T : Nat) (s : State) (t : Tid) (s' : State)
    (h : step T s t = some s') : Ledger t s s' := by
  cases t with
  | conductor =>
    simp only [step] at h
    cases hf : conductor_func T s.conductor s.vars with
    | none => simp [hf] at h
    | some r =>
      obtain ⟨pc, v⟩ := r
      simp only [hf, Option.some.injEq] at h
      subst h
      exact ledger_conductor T s pc v hf
  | oxygen i =>
    simp only [step] at h
    cases hpc : s.oxygens[i]? with
    | none => simp [hpc] at h
    | some pc =>
      simp only [hpc] at h
      cases hf : oxy_func pc s.vars with
      | none => simp [hf] at h
      | some r =>
        obtain ⟨pc', v⟩ := r
        simp only [hf, Option.some.injEq] at h
        subst h
        obtain ⟨hmove, hmc, hhq, hoq, -⟩ := oxy_func_move pc pc' s.vars v hf
        have hb := atomMove_bonded _ _ _ _ _ _ _ _ _ _ hmove
        constructor <;>
          simp only [bodyEntered, oxygenTaken, hydrogenTaken, oxygenAdmitted,
            hydrogenAdmitted, bondedReleased, hmc, hhq] <;>
          (try simp) <;> omega
  | hydrogen i =>
    simp only [step] at h
    cases hpc : s.hydrogens[i]? with
    | none => simp [hpc] at h
    | some pc =>
      simp only [hpc] at h
      cases hf : hyd_func pc s.vars with
      | none => simp [hf] at h
      | some r =>
        obtain ⟨pc', v⟩ := r
        simp only [hf, Option.some.injEq] at h
        subst h
        obtain ⟨hmove, hmc, hoq, hhq, -⟩ := hyd_func_move pc pc' s.vars v hf
        have hb := atomMove_bonded _ _ _ _ _ _ _ _ _ _ hmove
        constructor <;>
          simp only [bodyEntered, oxygenTaken, hydrogenTaken, oxygenAdmitted,
            hydrogenAdmitted, bondedReleased, hmc, hoq] <;>
          (try simp) <;> omega

theorem run_append (T : Nat) :
    ∀ (a b : List Tid) (s : State),
      run T s (a ++ b) = (run T s a).bind (fun s' => run T s' b) := by
  intro a
  induction a with
  | nil => intro b s; simp [run]
  | cons t ts ih =>
    intro b s
    simp only [List.cons_append, run]
    cases hs : step T s t with
    | none => simp
    | some s₁ => simp [ih]

theorem inv_of_run (T nO nH : Nat) (sched : List Tid) (s : State)
    (h : run T (State.init nO nH) sched = some s) : Inv T s :=
  run_preserves_inv T sched _ s (inv_init T nO nH) h

/-! ### A completed run exists -/

/-- Threads that are not scheduled do not matter: a statement that runs in a state
runs in the same way when more atoms stand before and after the pools. -/
theorem step_frame (T : Nat) (A C A' C' : List AtomPc) (s s' : State) (t : Tid)
    (h : step T s t = some s') :
    step T { s with hydrogens := A' ++ s.hydrogens ++ C', oxygens := A ++ s.oxygens ++ C }
        (shift A.length A'.length t)
      = some { s' with hydrogens := A' ++ s'.hydrogens ++ C',
                       oxygens := A ++ s'.oxygens ++ C } := by
  cases t with
  | conductor =>
    simp only [step, shift] at h ⊢
    cases hf : conductor_func T s.conductor s.vars with
    | none => simp [hf] at h
    | some r =>
      obtain ⟨pc, v⟩ := r
      simp only [hf, Option.some.injEq] at h ⊢
      subst h
      rfl
  | oxygen i =>
    simp only [step, shift] at h ⊢
    cases hpc : s.oxygens[i]? with
    | none => simp [hpc] at h
    | some pc =>
      simp only [hpc] at h
      cases hf : oxy_func pc s.vars with
      | none => simp [hf] at h
      | some r =>
        obtain ⟨pc', v⟩ := r
        simp only [hf, Option.some.injEq] at h
        subst h
        simp only [getElem?_frame A s.oxygens C i pc hpc, hf,
          set_frame A s.oxygens C i pc' (getElem?_lt _ _ _ hpc)]
  | hydrogen i =>
    simp only [step, shift] at h ⊢
    cases hpc : s.hydrogens[i]? with
    | none => simp [hpc] at h
    | some pc =>
      simp only [hpc] at h
      cases hf : hyd_func pc s.vars with
      | none => simp [hf] at h
      | some r =>
        obtain ⟨pc', v⟩ := r
        simp only [hf, Option.some.injEq] at h
        subst h
        simp only [getElem?_frame A' s.hydrogens C' i pc hpc, hf,
          set_frame A' s.hydrogens C' i pc' (getElem?_lt _ _ _ hpc)]

theorem run_frame (T : Nat) (A C A' C' : List AtomPc) :
    ∀ (sched : List Tid) (s s' : State), run T s sched = some s' →
      run T { s with hydrogens := A' ++ s.hydrogens ++ C', oxygens := A ++ s.oxygens ++ C }
          (sched.map (shift A.length A'.length))
        = some { s' with hydrogens := A' ++ s'.hydrogens ++ C',
                         oxygens := A ++ s'.oxygens ++ C } := by
  intro sched
  induction sched with
  | nil =>
    intro s s' h
    simp only [run, Option.some.injEq] at h
    subst h
    rfl
  | cons t ts ih =>
    intro s s' h
    simp only [run] at h
    cases hs : step T s t with
    | none => simp [hs] at h
    | some s₁ =>
      simp only [hs] at h
      simp only [List.map_cons, run, step_frame T A C A' C' s s₁ t hs]
      exact ih s₁ s' h

/-- One cycle on pools of one oxygen and two hydrogens, `k` molecules being completed
and the target not yet reached. -/
theorem run_oneCycle (T k : Nat) (hk : k ≠ T) :
    run T { vars := { oxygen_queue := 0, hydrogen_queue := 0, oxygen := 0, hydrogen := 0,
                      bonded := 0, mutex := 1, done := 0, molecules_completed := k },
            conductor := CondPc.loop,
            hydrogens := [AtomPc.arrive, AtomPc.arrive],
            oxygens := [AtomPc.arrive] } oneCycle
      = some { vars := { oxygen_queue := 0, hydrogen_queue := 0, oxygen := 0, hydrogen := 0,
                         bonded := 0, mutex := 1, done := 0, molecules_completed := k + 1 },
               conductor := CondPc.loop,
               hydrogens := [AtomPc.finished, AtomPc.finished],
               oxygens := [AtomPc.finished] } := by
  simp [oneCycle, run, step, oxy_func, hyd_func, conductor_func, hk]

theorem run_cycle_between (T nO nH k : Nat) (hk : k ≠ T) (hO : k < nO) (hH : 2 * k + 2 ≤ nH) :
    run T (State.between nO nH k) (oneCycle.map (shift k (2 * k)))
      = some (State.between nO nH (k + 1)) := by
  have h := run_frame T (List.replicate k AtomPc.finished)
    (List.replicate (nO - (k + 1)) AtomPc.arrive)
    (List.replicate (2 * k) AtomPc.finished)
    (List.replicate (nH - (2 * k + 2)) AtomPc.arrive) oneCycle _ _ (run_oneCycle T k hk)
  simp only [List.length_replicate] at h
  have e3 : 2 * (k + 1) = 2 * k + 2 := by omega
  simp only [State.between, e3]
  rw [replicate_split AtomPc.finished AtomPc.arrive nO k 1 (by omega),
    replicate_split AtomPc.finished AtomPc.arrive nH (2 * k) 2 (by omega),
    replicate_join AtomPc.finished k 1, replicate_join AtomPc.finished (2 * k) 2]
  exact h

theorem run_cycles (T nO nH : Nat) :
    ∀ k : Nat, k ≤ T → k ≤ nO → 2 * k ≤ nH →
      run T (State.init nO nH) (cycles k) = some (State.between nO nH k) := by
  intro k
  induction k with
  | zero =>
    intro _ _ _
    simp [cycles, run, State.init, State.between]
  | succ k ih =>
    intro h1 h2 h3
    rw [cycles, run_append, ih (by omega) (by omega) (by omega)]
    exact run_cycle_between T nO nH k (by omega) (by omega) (by omega)

/-- With at least `T` oxygen and `2 * T` hydrogen threads the conductor can complete:
`completeSchedule T` is an interleaving that runs the loop to its exit. -/
theorem run_completeSchedule (T nO nH : Nat) (hO : T ≤ nO) (hH : 2 * T ≤ nH) :
    run T (State.init nO nH) (completeSchedule T) = some (State.completed nO nH T) := by
  rw [completeSchedule, run_append, run_cycles T nO nH T (le_refl T) hO hH]
  simp [run, step, conductor_func, State.between, State.completed]

/-! ### The claims about the molecule engine -/

/-- C8: the accounts of the conductor loop, for every target `T` and pool sizes.  Take
any run that reaches the loop test (state `s₀`) and continues to a later visit of the
loop test or to the exit of the loop (state `s`).  Over that stretch the conductor
enters the loop body once per unit added to `molecules_completed`, and per body
execution it consumes exactly 1 `oxygen` and 2 `hydrogen` arrival tokens and issues
exactly 1 `oxygen_queue` and 2 `hydrogen_queue` admissions.  At `s` exactly
`molecules_completed` oxygen atoms and twice as many hydrogen atoms have been admitted,
no admission is left over, and if the loop has been left then
`molecules_completed == T`.  With `s₀` the initial state this is the total for a
completed run: `T` body executions, `T` oxygen and `2 * T` hydrogen atoms.  Completed
runs exist as soon as the pools hold `T` oxygen and `2 * T` hydrogen threads. -/
theorem conductor_loop_accounts (T nO nH : Nat) (pre seg : List Tid) (s₀ s : State)
    (hpre : run T (State.init nO nH) pre = some s₀)
    (hseg : run T s₀ seg = some s)
    (h₀ : s₀.conductor = CondPc.loop)
    (h₁ : s.conductor = CondPc.loop ∨ s.conductor = CondPc.finished) :
    (s.conductor = CondPc.finished → s.vars.molecules_completed = T)
      ∧ s₀.vars.molecules_completed + tally T bodyEntered s₀ seg
          = s.vars.molecules_completed
      ∧ s₀.vars.molecules_completed + tally T oxygenTaken s₀ seg
          = s.vars.molecules_completed
      ∧ 2 * s₀.vars.molecules_completed + tally T hydrogenTaken s₀ seg
          = 2 * s.vars.molecules_completed
      ∧ s₀.vars.molecules_completed + tally T oxygenAdmitted s₀ seg
          = s.vars.molecules_completed
      ∧ 2 * s₀.vars.molecules_completed + tally T hydrogenAdmitted s₀ seg
          = 2 * s.vars.molecules_completed
      ∧ admitted s.oxygens = s.vars.molecules_completed
      ∧ admitted s.hydrogens = 2 * s.vars.molecules_completed
      ∧ s.vars.oxygen_queue = 0 ∧ s.vars.hydrogen_queue = 0
      ∧ (T ≤ nO → 2 * T ≤ nH →
          ∃ (sched : List Tid) (s' : State),
            run T (State.init nO nH) sched = some s' ∧ s'.conductor = CondPc.finished) := by
  have hI : Inv T s := by
    apply inv_of_run T nO nH (pre ++ seg)
    rw [run_append, hpre]
    exact hseg
  have e1 := tally_potential T bodyEntered
    (fun s => s.vars.molecules_completed + s.conductor.inBody)
    (fun s t s' h => (ledger_step T s t s' h).body) seg s₀ s hseg
  have e2 := tally_potential T oxygenTaken
    (fun s => s.vars.molecules_completed + s.conductor.tookO)
    (fun s t s' h => (ledger_step T s t s' h).tookO) seg s₀ s hseg
  have e3 := tally_potential T hydrogenTaken
    (fun s => 2 * s.vars.molecules_completed + s.conductor.tookH)
    (fun s t s' h => (ledger_step T s t s' h).tookH) seg s₀ s hseg
  have e4 := tally_potential T oxygenAdmitted
    (fun s => s.vars.molecules_completed + s.conductor.gaveO)
    (fun s t s' h => (ledger_step T s t s' h).gaveO) seg s₀ s hseg
  have e5 := tally_potential T hydrogenAdmitted
    (fun s => 2 * s.vars.molecules_completed + s.conductor.gaveH)
    (fun s t s' h => (ledger_step T s t s' h).gaveH) seg s₀ s hseg
  simp only [h₀] at e1 e2 e3 e4 e5
  have hP := hI.gating.progress
  have hO := hI.oxygen_admitted
  have hH := hI.hydrogen_admitted
  rcases h₁ with h | h <;> rw [h] at e1 e2 e3 e4 e5 hP hO hH <;>
    simp only [CondPc.inBody, CondPc.tookO, CondPc.tookH, CondPc.gaveO, CondPc.gaveH,
      CondPc.issued] at e1 e2 e3 e4 e5 hP hO hH <;>
    refine ⟨?_, by omega, by omega, by omega, by omega, by omega, by omega, by omega,
      by omega, by omega,
      fun h1 h2 => ⟨completeSchedule T, State.completed nO nH T,
        run_completeSchedule T nO nH h1 h2, rfl⟩⟩
  · intro h'
    rw [h] at h'
    cases h'
  · exact hI.target.1

/-- Witness for C8: Scenario 1 of the specification.  With `nmolecules = 100`,
`noxygen = 100` and `nhydrogen = 200`, the run `completeSchedule 100` is completed; its
loop body runs 100 times, the conductor consumes 100 `oxygen` and 200 `hydrogen`
tokens and issues 100 and 200 admissions, and 100 oxygen and 200 hydrogen atoms are
admitted. -/
theorem conductor_loop_accounts_witness :
    run nmolecules (State.init noxygen nhydrogen) (completeSchedule nmolecules)
        = some (State.completed noxygen nhydrogen nmolecules)
      ∧ (State.completed noxygen nhydrogen nmolecules).conductor = CondPc.finished
      ∧ (State.completed noxygen nhydrogen nmolecules).vars.molecules_completed = 100
      ∧ tally nmolecules bodyEntered (State.init noxygen nhydrogen)
          (completeSchedule nmolecules) = 100
      ∧ tally nmolecules oxygenTaken (State.init noxygen nhydrogen)
          (completeSchedule nmolecules) = 100
      ∧ tally nmolecules hydrogenTaken (State.init noxygen nhydrogen)
          (completeSchedule nmolecules) = 200
      ∧ tally nmolecules oxygenAdmitted (State.init noxygen nhydrogen)
          (completeSchedule nmolecules) = 100
      ∧ tally nmolecules hydrogenAdmitted (State.init noxygen nhydrogen)
          (completeSchedule nmolecules) = 200
      ∧ admitted (State.completed noxygen nhydrogen nmolecules).oxygens = 100
      ∧ admitted (State.completed noxygen nhydrogen nmolecules).hydrogens = 200 := by
  have hrun := run_completeSchedule nmolecules noxygen nhydrogen (by decide) (by decide)
  obtain ⟨-, h2, h3, h4, h5, h6, h7, h8, -, -, -⟩ :=
    conductor_loop_accounts nmolecules noxygen nhydrogen [] (completeSchedule nmolecules)
      (State.init noxygen nhydrogen) (State.completed noxygen nhydrogen nmolecules)
      rfl hrun rfl (Or.inr rfl)
  have e0 : (State.init noxygen nhydrogen).vars.molecules_completed = 0 := rfl
  have e1 : (State.completed noxygen nhydrogen nmolecules).vars.molecules_completed = 100 :=
    rfl
  rw [e0, e1] at h2 h3 h4 h5 h6
  rw [e1] at h7 h8
  exact ⟨hrun, rfl, rfl, by omega, by omega, by omega, by omega, by omega, h7, h8⟩

/-- C9: strict gating of the bonding cycles, in every interleaving.  `done` never
exceeds 3.  When the conductor is about to issue the admissions of a cycle (at
`oxygen_queue.release()`), no admission of an earlier cycle is outstanding: both queue
semaphores are at zero, every admitted atom has run `++done`, and `done` has been reset.
When it is about to issue the hydrogen admissions (at
`hydrogen_queue.release(2)`), no hydrogen admission is outstanding and the only
outstanding admission is the oxygen one it has just issued.
`bonded` never holds more than one token, an atom is at `bonded.release()` only when
`done == 3`, and the number of `bonded.release()` executed so far is
`molecules_completed`, plus one while the conductor is between `bonded.acquire()` and
`++molecules_completed`, plus the token in `bonded`: one release per cycle.  When the
conductor is about to run `done = 0`, `done` is 3 and no admitted atom has yet to run
`++done`. -/
theorem bonding_cycles_are_gated (T nO nH : Nat) (sched : List Tid) (s : State)
    (hrun : run T (State.init nO nH) sched = some s) :
    s.vars.done ≤ 3
      ∧ (s.conductor = CondPc.relO →
          s.vars.oxygen_queue = 0 ∧ s.vars.hydrogen_queue = 0
            ∧ pending s.oxygens = 0 ∧ pending s.hydrogens = 0 ∧ s.vars.done = 0
            ∧ admitted s.oxygens = s.vars.molecules_completed
            ∧ admitted s.hydrogens = 2 * s.vars.molecules_completed)
      ∧ (s.conductor = CondPc.relH →
          s.vars.hydrogen_queue = 0 ∧ pending s.hydrogens = 0
            ∧ s.vars.oxygen_queue + pending s.oxygens + s.vars.done = 1)
      ∧ s.vars.bonded + s.oxygens.count AtomPc.signal + s.hydrogens.count AtomPc.signal ≤ 1
      ∧ (0 < s.oxygens.count AtomPc.signal + s.hydrogens.count AtomPc.signal →
          s.vars.done = 3)
      ∧ tally T bondedReleased (State.init nO nH) sched
          = s.vars.molecules_completed + s.conductor.gotB + s.vars.bonded
      ∧ (s.conductor = CondPc.loop ∨ s.conductor = CondPc.finished →
          tally T bondedReleased (State.init nO nH) sched = s.vars.molecules_completed)
      ∧ (s.conductor = CondPc.reset →
          s.vars.done = 3 ∧ s.vars.oxygen_queue = 0 ∧ s.vars.hydrogen_queue = 0
            ∧ pending s.oxygens = 0 ∧ pending s.hydrogens = 0) := by
  have hI := inv_of_run T nO nH sched s hrun
  obtain ⟨⟨hM, hP, hQ, hA, hR⟩, hT, hO, hH, hJ⟩ := hI
  have e := tally_potential T bondedReleased
    (fun s => s.vars.molecules_completed + s.conductor.gotB + s.vars.bonded)
    (fun s t s' h => (ledger_step T s t s' h).bonded) sched _ s hrun
  change s.vars.molecules_completed + s.conductor.gotB + s.vars.bonded
    = 0 + tally T bondedReleased (State.init nO nH) sched at e
  obtain ⟨i7, i8, i0⟩ := issued_cases s.conductor
  rw [pending_append] at hP
  simp only [List.count_append] at hQ hA hR
  have hdone : s.vars.done ≤ 3 := by
    by_cases h7 : s.conductor = CondPc.acqB
    · have := i7 h7
      omega
    · by_cases h8 : s.conductor = CondPc.reset
      · have := i8 h8
        omega
      · have := i0 h7 h8
        omega
  refine ⟨hdone, ?_, ?_, ?_, ?_, by omega, ?_, ?_⟩
  · intro hc
    rw [hc] at hP hO hH
    simp only [CondPc.issued, CondPc.gaveO, CondPc.gaveH] at hP hO hH
    omega
  · intro hc
    have := hJ (by rw [hc]; decide) (by rw [hc]; decide)
    rw [hc] at hP
    simp only [CondPc.issued] at hP
    omega
  · by_cases h7 : s.conductor = CondPc.acqB
    · have := hA h7
      omega
    · have := hQ h7
      omega
  · intro hs
    by_cases h7 : s.conductor = CondPc.acqB
    · have := hA h7
      omega
    · have := hQ h7
      omega
  · intro hc
    have hb : s.vars.bonded = 0 := by
      apply (hQ _).1
      rcases hc with h | h <;> rw [h] <;> decide
    rcases hc with h | h <;> rw [h] at e <;> simp only [CondPc.gotB] at e <;> omega
  · intro hc
    have := hR hc
    have := i8 hc
    omega

/-- Witness for C9: one oxygen and two hydrogens, run up to the conductor's
`bonded.acquire()`.  The conductor is about to reset `done`, which is 3; nothing is
pending; `bonded` has been released once. -/
theorem bonding_cycles_are_gated_witness :
    run 1 (State.init 1 2) upToReset = some State.atReset
      ∧ State.atReset.conductor = CondPc.reset
      ∧ State.atReset.vars.done = 3
      ∧ pending State.atReset.oxygens = 0 ∧ pending State.atReset.hydrogens = 0
      ∧ tally 1 bondedReleased (State.init 1 2) upToReset = 1 := by
  have hrun : run 1 (State.init 1 2) upToReset = some State.atReset := by decide
  obtain ⟨-, -, -, -, -, h6, -, h8⟩ :=
    bonding_cycles_are_gated 1 1 2 upToReset State.atReset hrun
  obtain ⟨h81, -, -, h84, h85⟩ := h8 rfl
  exact ⟨hrun, rfl, h81, h84, h85, h6⟩

end H2O
